import Mathlib

/-!
A shallow embedding of the Fathom rule engine core, translated from
`src/ruleset.js`, `src/lhs.js` and `src/optimizers.js`, together with
theorems about the planner, the executor, the per-type caches, the
emission metadata, the clustering aggregate and the simulated-annealing
optimizer.

Conventions of the embedding:
* DOM elements are opaque handles (`ElemId := Nat`); the document is an
  oracle supplying `querySelectorAll` results and the element distance
  metric (the tree-walking metric lives in `clusters.js`, which is not
  among the sources; only its call sites are).
* JavaScript `Map`s and `Set`s are association lists / lists with
  membership-guarded insertion, preserving insertion order.
* Scores are exact rationals; the engine compares and multiplies them but
  never uses transcendental operations (the annealer's `Math.exp`-based
  acceptance test is abstracted as an acceptance oracle).
* Thrown exceptions are `Except Err`; functions that mutate the bound
  ruleset thread it explicitly and also return the state reached when an
  error is thrown (mutations performed before an error remain, as the
  design notes specify).
-/

namespace Fathom

abbrev TypeName := String
abbrev ElemId := Nat
abbrev Note := String

/-- Stable error identifiers of the engine (spec section 7). -/
inductive Err where
  | cycle
  | missingOutKey
  | conserveScoreWithoutType
  | scoreWithoutInferableType
  | noteWithoutInferableType
  | underspecifiedEmission
  | domRuleMustAssignType
  | noteOverwrite
  | doubleExecution
deriving DecidableEq

def exceptIsOk {ε α : Type} : Except ε α → Bool
  | .ok _ => true
  | .error _ => false

deriving instance DecidableEq for Except

/-! Rational arithmetic in explicitly computable form. The primitive `Rat`
operations are irreducible (they are backed by an external implementation),
so the engine's arithmetic is written through `mkRat`, which does reduce; the
lemmas right below identify these forms with the ordinary field operations. -/

def qmul (a b : ℚ) : ℚ := mkRat (a.num * b.num) (a.den * b.den)

def qadd (a b : ℚ) : ℚ := mkRat (a.num * b.den + b.num * a.den) (a.den * b.den)

def qsub (a b : ℚ) : ℚ := mkRat (a.num * b.den - b.num * a.den) (a.den * b.den)

/-- Association-list lookup: the model of JavaScript `Map.get`. -/
def alistGet {κ ν : Type} [DecidableEq κ] (k : κ) : List (κ × ν) → Option ν
  | [] => none
  | p :: rest => if p.1 = k then some p.2 else alistGet k rest

/-- Modelled from the spec: `getDefault` of the absent `utils.js` returns the
mapped value or the supplied default. -/
def getDefault {κ ν : Type} [DecidableEq κ] (m : List (κ × ν)) (k : κ) (d : ν) : ν :=
  (alistGet k m).getD d

/-- Association-list update: the model of JavaScript `Map.set`, which replaces
the value of an existing key in place and otherwise appends. -/
def alistSet {κ ν : Type} [DecidableEq κ] (k : κ) (v : ν) : List (κ × ν) → List (κ × ν)
  | [] => [(k, v)]
  | p :: rest => if p.1 = k then (k, v) :: rest else p :: alistSet k v rest

/-- Modelled from the spec: the `setDefault(map, key, () => []).push(x)` idiom
of the absent `utils.js`, appending `x` to the list stored at `key`. -/
def alistPush {κ α : Type} [DecidableEq κ] (k : κ) (x : α) :
    List (κ × List α) → List (κ × List α)
  | [] => [(k, [x])]
  | p :: rest => if p.1 = k then (p.1, p.2 ++ [x]) :: rest else p :: alistPush k x rest

/-- Modelled from the spec: `setDefault(map, key, () => new Set()).add(x)`;
adds `x` to the set stored at `key` (JavaScript `Set.add` deduplicates). -/
def alistAddMem {κ α : Type} [DecidableEq κ] [DecidableEq α] (k : κ) (x : α) :
    List (κ × List α) → List (κ × List α)
  | [] => [(k, [x])]
  | p :: rest =>
      if p.1 = k then (p.1, if x ∈ p.2 then p.2 else p.2 ++ [x]) :: rest
      else p :: alistAddMem k x rest

/-- Modelled from the spec: `NiceSet.add` of the absent `utils.js`
(a JavaScript `Set` keeps first-insertion order and deduplicates). -/
def dedupInsert {α : Type} [DecidableEq α] (xs : List α) (x : α) : List α :=
  if x ∈ xs then xs else xs ++ [x]

/-- Modelled from the spec: `NiceSet.extend` of the absent `utils.js`. -/
def dedupUnion {α : Type} [DecidableEq α] (xs ys : List α) : List α :=
  ys.foldl dedupInsert xs

/-- Modelled from the spec: `maxes(iterable, by)` of the absent `utils.js`:
all items tied for the maximal key, in encounter order. -/
def maxes {α : Type} (key : α → ℚ) (items : List α) : List α :=
  items.foldl
    (fun acc x =>
      match acc with
      | [] => [x]
      | best :: _ =>
          if key best < key x then [x]
          else if key x = key best then acc ++ [x]
          else acc)
    []

/-- One step of the running-maximum fold: keep the incumbent unless the new
item's key is strictly larger (so the first of tied items wins). -/
def maxByStep {α : Type} (key : α → ℚ) (acc : Option α) (x : α) : Option α :=
  match acc with
  | none => some x
  | some b => if key b < key x then some x else acc

/-- Modelled from the spec: `max(iterable, by)` of the absent `utils.js`:
the first item achieving the maximal key, if any. -/
def maxBy {α : Type} (key : α → ℚ) (items : List α) : Option α :=
  items.foldl (maxByStep key) none

/-- Modelled from the spec: `sum` of the absent `utils.js`. -/
def sumQ (xs : List ℚ) : ℚ := xs.foldl (fun a b => qadd a b) 0

/-- Per-type score and note of an fnode (spec section 3). -/
structure ScoreAndNote where
  score : ℚ
  note : Option Note
deriving DecidableEq

/-- Modelled from the spec: `fnode.js` is absent from the sources. Per-element
record of per-type scores and notes; a type is borne iff it appears in the
mapping, and a score defaults to 1 when the type is first added. -/
structure Fnode where
  element : ElemId
  typesAndData : List (TypeName × ScoreAndNote)
deriving DecidableEq

def Fnode.lookupType (f : Fnode) (t : TypeName) : Option ScoreAndNote :=
  alistGet t f.typesAndData

def Fnode.typesSoFar (f : Fnode) : List TypeName :=
  f.typesAndData.map (fun p => p.1)

def Fnode.hasType (f : Fnode) (t : TypeName) : Bool :=
  (f.lookupType t).isSome

def Fnode.scoreSoFarFor (f : Fnode) (t : TypeName) : ℚ :=
  ((f.lookupType t).map ScoreAndNote.score).getD 1

def Fnode.scoreFor (f : Fnode) (t : TypeName) : ℚ :=
  f.scoreSoFarFor t

/-- Modelled from the spec: multiplying by `x` replaces the score with
`score * x`, adding the type (at the default score 1) if absent. -/
def Fnode.multiplyScoreFor (f : Fnode) (t : TypeName) (x : ℚ) : Fnode :=
  let r := (f.lookupType t).getD ⟨1, none⟩
  ⟨f.element, alistSet t ⟨qmul r.score x, r.note⟩ f.typesAndData⟩

/-- Modelled from the spec: a note, once set to a non-undefined value, may not
be overwritten by another non-undefined value (`noteOverwrite`); re-setting to
undefined is a no-op; setting establishes the type even without a note. -/
def Fnode.setNoteFor (f : Fnode) (t : TypeName) (note : Option Note) :
    Except Err Fnode :=
  match f.lookupType t with
  | some r =>
      match r.note, note with
      | some _, some _ => .error .noteOverwrite
      | some _, none => .ok f
      | none, some n2 => .ok ⟨f.element, alistSet t ⟨r.score, some n2⟩ f.typesAndData⟩
      | none, none => .ok f
  | none => .ok ⟨f.element, alistSet t ⟨1, note⟩ f.typesAndData⟩

/-- Modelled from the spec: `conserveScore=true` multiplies the LHS type's
score on the source fnode into the target's effective type. -/
def Fnode.conserveScoreFrom (f : Fnode) (src : Fnode) (leftType rightType : TypeName) :
    Fnode :=
  f.multiplyScoreFor rightType (src.scoreFor leftType)

/-- Options taken by `bestCluster` (`lhs.js`); only the clustering cut-off is
interpreted by the engine itself, the cost constants are consumed by the
distance metric, which the document oracle models. -/
structure ClusterOptions where
  splittingDistance : ℚ
deriving DecidableEq

/-! ### Clustering (modelled from the spec)

`clusters.js` is absent from the sources; the agglomerative procedure below is
modelled from spec section 4.4: initialize singletons, repeatedly merge the
pair of clusters at minimal cross distance while that distance does not exceed
the cut-off. The element-level distance metric is a parameter. -/

def minQ : List ℚ → Option ℚ
  | [] => none
  | x :: rest =>
      match minQ rest with
      | none => some x
      | some m => some (if x ≤ m then x else m)

def pairDists {α : Type} (d : α → α → ℚ) (c1 c2 : List α) : List ℚ :=
  (c1.map (fun a => c2.map (fun b => d a b))).flatten

/-- Single-link distance between two clusters: minimum over cross pairs. -/
def clusterDist {α : Type} (d : α → α → ℚ) (c1 c2 : List α) : Option ℚ :=
  minQ (pairDists d c1 c2)

def allPairs (n : Nat) : List (Nat × Nat) :=
  (List.range n).foldl
    (fun acc i => acc ++ ((List.range n).filter (fun j => i < j)).map (fun j => (i, j)))
    []

/-- Find the pair of clusters with the smallest pairwise distance. -/
def closestPair {α : Type} (d : α → α → ℚ) (cs : List (List α)) :
    Option (Nat × Nat × ℚ) :=
  (allPairs cs.length).foldl
    (fun acc p =>
      match clusterDist d (cs.getD p.1 []) (cs.getD p.2 []) with
      | none => acc
      | some dist =>
          match acc with
          | none => some (p.1, p.2, dist)
          | some q => if dist < q.2.2 then some (p.1, p.2, dist) else acc)
    none

def mergeClusters {α : Type} (cs : List (List α)) (i j : Nat) : List (List α) :=
  (cs.getD i [] ++ cs.getD j []) :: (cs.eraseIdx j).eraseIdx i

def clustersGo {α : Type} (d : α → α → ℚ) (cutoff : ℚ) :
    Nat → List (List α) → List (List α)
  | 0, cs => cs
  | fuel + 1, cs =>
      match closestPair d cs with
      | none => cs
      | some (i, j, dist) =>
          if cutoff < dist then cs
          else clustersGo d cutoff fuel (mergeClusters cs i j)

/-- Modelled from the spec: `clusters(items, splittingDistance, d)` of the
absent `clusters.js` (spec section 4.4). -/
def clusters {α : Type} (items : List α) (splittingDistance : ℚ) (d : α → α → ℚ) :
    List (List α) :=
  clustersGo d splittingDistance items.length (items.map (fun x => [x]))

/-! ### LHS values (`src/lhs.js`)

The spec's design notes direct re-architecting the runtime-shape dispatch of
`lhs.js` as a tagged variant, which is what we do. `.when()` post-filters
default to the constant-true predicate (making `fnodesSatisfyingWhen` the
identity) and are not exercised by any rule analysed here, so the predicate
field is inlined away. -/

inductive Lhs where
  | dom (selector : String)
  | ofType (t : TypeName)
  | typeMax (t : TypeName)
  | bestCluster (t : TypeName) (options : ClusterOptions)
  | and (ts : List TypeName)

/-- Option defaulting of `BestClusterLhs`: `options || splittingDistance 3`
(`lhs.js`). -/
def bestClusterOptions (options : Option ClusterOptions) : ClusterOptions :=
  options.getD ⟨3⟩

/-- The `type(t).bestCluster(options)` builder call (`lhs.js`). -/
def bestClusterLhs (t : TypeName) (options : Option ClusterOptions) : Lhs :=
  .bestCluster t (bestClusterOptions options)

def Lhs.guaranteedType : Lhs → Option TypeName
  | .dom _ => none
  | .ofType t => some t
  | .typeMax t => some t
  | .bestCluster t _ => some t
  | .and _ => none

def Lhs.aggregatedType : Lhs → Option TypeName
  | .typeMax t => some t
  | .bestCluster t _ => some t
  | _ => none

def Lhs.typesMentioned : Lhs → List TypeName
  | .dom _ => []
  | .ofType t => [t]
  | .typeMax t => [t]
  | .bestCluster t _ => [t]
  | .and ts => dedupUnion [] ts

def Lhs.possibleTypeCombinations : Lhs → List (List TypeName)
  | .dom _ => []
  | .ofType t => [[t]]
  | .typeMax t => [[t]]
  | .bestCluster t _ => [[t]]
  | .and ts => [dedupUnion [] ts]

/-! ### Facts, RHS values and rules (`src/ruleset.js`) -/

/-- A fact emitted by an RHS for one input fnode (spec section 3). -/
structure Fact where
  element : Option ElemId
  type : Option TypeName
  score : Option ℚ
  note : Option Note
  conserveScore : Bool

/-- Static emission metadata exposed by `rhs.possibleEmissions()`; the rule
engine consumes only this shape of it (`rhs.js` is not among the sources, so
the metadata and the fact function are carried as data). -/
structure Emissions where
  couldChangeType : Bool
  possibleTypes : List TypeName
deriving DecidableEq

inductive Rhs where
  | inward (emissions : Emissions) (fact : Fnode → Option TypeName → Fact)
  | outward (key : String)

def Rhs.possibleEmissions : Rhs → Emissions
  | .inward em _ => em
  | .outward _ => ⟨false, []⟩

/-- A rule is a pair (LHS, RHS); inward when the RHS merges facts back into
the fnode store, outward when the RHS is a keyed sink. -/
structure Rule where
  lhs : Lhs
  rhs : Rhs

def Rule.isInward (r : Rule) : Bool :=
  match r.rhs with
  | .inward _ _ => true
  | .outward _ => false

def Rule.outKey (r : Rule) : Option String :=
  match r.rhs with
  | .inward _ _ => none
  | .outward k => some k

/-- `InwardRule.typesItCouldEmit` (`ruleset.js`): the guaranteed type when the
RHS cannot change type and one is guaranteed; else the declared possible
types; else the `underspecifiedEmission` error. -/
def Rule.typesItCouldEmit (r : Rule) : Except Err (List TypeName) :=
  let em := r.rhs.possibleEmissions
  match em.couldChangeType, r.lhs.guaranteedType with
  | false, some g => .ok [g]
  | _, _ =>
      if em.possibleTypes.isEmpty then .error .underspecifiedEmission
      else .ok em.possibleTypes

/-- `InwardRule.typesItCouldAdd` (`ruleset.js`): the emitted set minus the
LHS-guaranteed type. -/
def Rule.typesItCouldAdd (r : Rule) : Except Err (List TypeName) :=
  match r.typesItCouldEmit with
  | .error e => .error e
  | .ok emitted =>
      .ok (match r.lhs.guaranteedType with
           | none => emitted
           | some g => emitted.filter (fun t => !(t == g)))

/-- The base-class `Rule._typesFinalized` (`ruleset.js`): the aggregated type,
if any. -/
def Rule.typesFinalizedBase (r : Rule) : List TypeName :=
  match r.lhs.aggregatedType with
  | none => []
  | some t => [t]

/-- The `typesThatCouldChange` part of `InwardRule._typesFinalized`
(`ruleset.js`): when the RHS could change type, each possible guaranteed-type
combination of the LHS that the RHS could escape gets unioned in. -/
def Rule.typesThatCouldChange (r : Rule) : List TypeName :=
  let em := r.rhs.possibleEmissions
  if em.couldChangeType then
    r.lhs.possibleTypeCombinations.foldl
      (fun acc combo =>
        if em.possibleTypes.any (fun rt => !(combo.contains rt)) then dedupUnion acc combo
        else acc)
      []
  else []

/-- `_typesFinalized`, dispatched by rule kind (`ruleset.js`): inward rules
add the types they could change; outward rules finalize all mentioned types. -/
def Rule.typesFinalized (r : Rule) : List TypeName :=
  match r.rhs with
  | .inward _ _ => dedupUnion r.typesThatCouldChange r.typesFinalizedBase
  | .outward _ => dedupUnion r.lhs.typesMentioned r.typesFinalizedBase

/-! ### The ruleset constructor (`src/ruleset.js`) -/

/-- An unbound ruleset: the rules plus the two precomputed indices, with
rules identified by their position in the input list (the stand-in for
JavaScript object identity). -/
structure Ruleset where
  rules : List Rule
  inRules : List Nat
  outRules : List (String × Nat)
  rulesThatCouldEmit : List (TypeName × List Nat)
  rulesThatCouldAdd : List (TypeName × List Nat)

def pushAll (i : Nat) (ts : List TypeName) (idx : List (TypeName × List Nat)) :
    List (TypeName × List Nat) :=
  ts.foldl (fun m t => alistPush t i m) idx

/-- The loop body of the `Ruleset` constructor (`ruleset.js`): inward rules
are indexed under every type they could emit and every type they could add
(either computation can throw `underspecifiedEmission`); outward rules are
stored by key, `Map.set` silently replacing an earlier rule with the same
key. -/
def Ruleset.constructGo : List Rule → Nat → Ruleset → Except Err Ruleset
  | [], _, acc => .ok acc
  | r :: rest, i, acc =>
      match r.rhs with
      | .inward _ _ =>
          match r.typesItCouldEmit with
          | .error e => .error e
          | .ok emitted =>
              match r.typesItCouldAdd with
              | .error e => .error e
              | .ok adds =>
                  Ruleset.constructGo rest (i + 1)
                    { acc with
                      inRules := acc.inRules ++ [i]
                      rulesThatCouldEmit := pushAll i emitted acc.rulesThatCouldEmit
                      rulesThatCouldAdd := pushAll i adds acc.rulesThatCouldAdd }
      | .outward k =>
          Ruleset.constructGo rest (i + 1) { acc with outRules := alistSet k i acc.outRules }

/-- `ruleset(...rules)`: build the indices, raising errors early. -/
def Ruleset.construct (rules : List Rule) : Except Err Ruleset :=
  Ruleset.constructGo rules 0 ⟨rules, [], [], [], []⟩

/-! ### The bound ruleset (`src/ruleset.js`) -/

/-- The document oracle: `querySelectorAll` results in document order, plus
the element-level distance metric of the absent `clusters.js` (a pure
function of the tree structure and the cost options). -/
structure Document where
  querySelectorAll : String → List ElemId
  eltDistance : ElemId → ElemId → ClusterOptions → ℚ

/-- A ruleset bound to a document: per-document caches and accounting. -/
structure BoundRuleset where
  doc : Document
  rules : List Rule
  inRules : List Nat
  outRules : List (String × Nat)
  rulesThatCouldEmit : List (TypeName × List Nat)
  rulesThatCouldAdd : List (TypeName × List Nat)
  maxCache : List (TypeName × List ElemId)
  typeCache : List (TypeName × List ElemId)
  elementCache : List (ElemId × Fnode)
  doneRules : List Nat

/-- `Ruleset.against(doc)`: fresh caches, shared immutable rule data. -/
def Ruleset.against (rs : Ruleset) (doc : Document) : BoundRuleset :=
  ⟨doc, rs.rules, rs.inRules, rs.outRules, rs.rulesThatCouldEmit, rs.rulesThatCouldAdd,
   [], [], [], []⟩

def BoundRuleset.inwardRulesThatCouldEmit (s : BoundRuleset) (t : TypeName) : List Nat :=
  getDefault s.rulesThatCouldEmit t []

def BoundRuleset.inwardRulesThatCouldAdd (s : BoundRuleset) (t : TypeName) : List Nat :=
  getDefault s.rulesThatCouldAdd t []

/-- `fnodeForElement`: ensure the element has an fnode in the element cache
(a second lookup returns the same instance). -/
def BoundRuleset.fnodeForElement (s : BoundRuleset) (e : ElemId) : BoundRuleset :=
  { s with
    elementCache :=
      match alistGet e s.elementCache with
      | some _ => s.elementCache
      | none => s.elementCache ++ [(e, ⟨e, []⟩)] }

/-- Read the current fnode of an element from the element cache. -/
def BoundRuleset.fnodeOf (s : BoundRuleset) (e : ElemId) : Fnode :=
  (alistGet e s.elementCache).getD ⟨e, []⟩

/-- Write back a mutated fnode (JavaScript mutates the shared object; keying
by element preserves the aliasing). -/
def BoundRuleset.setFnode (s : BoundRuleset) (f : Fnode) : BoundRuleset :=
  { s with elementCache := alistSet f.element f s.elementCache }

/-! ### LHS match computation (`src/lhs.js`) -/

/-- `Lhs.fnodes(ruleset)` for each variant: `dom` queries the document;
`type` reads the type cache; `type().max()` consults `maxCache` via the
`setDefault` idiom; `bestCluster` clusters the typed fnodes and returns the
top-scoring cluster; `and` filters the first type's fnodes by the rest. -/
def Lhs.fnodes : Lhs → BoundRuleset → List ElemId × BoundRuleset
  | .dom sel, s =>
      let elems := s.doc.querySelectorAll sel
      (elems, elems.foldl (fun st e => st.fnodeForElement e) s)
  | .ofType t, s => (getDefault s.typeCache t [], s)
  | .typeMax t, s =>
      match alistGet t s.maxCache with
      | some cached => (cached, s)
      | none =>
          let computed :=
            maxes (fun e => (s.fnodeOf e).scoreSoFarFor t) (getDefault s.typeCache t [])
          (computed, { s with maxCache := alistSet t computed s.maxCache })
  | .bestCluster t opts, s =>
      let fnodesOfType := getDefault s.typeCache t []
      if fnodesOfType.isEmpty then ([], s)
      else
        let clusts :=
          clusters fnodesOfType opts.splittingDistance (fun a b => s.doc.eltDistance a b opts)
        let scored := clusts.map (fun c => (c, sumQ (c.map (fun e => (s.fnodeOf e).scoreFor t))))
        (((maxBy (fun p => p.2) scored).map (fun p => p.1)).getD [], s)
  | .and ts, s =>
      match ts with
      | [] => ([], s)
      | t0 :: rest =>
          ((getDefault s.typeCache t0 []).filter
             (fun e => rest.all (fun t => (s.fnodeOf e).hasType t)), s)

/-- `TypeMaxLhs.fnodes` instrumented with an evaluation counter: the third
component counts how many times the `maxFnodesOfType` computation inside the
`setDefault` call actually ran (0 on a cache hit, 1 on a miss), making
re-computation observable. -/
def typeMaxFnodesCounted (t : TypeName) (s : BoundRuleset) :
    List ElemId × BoundRuleset × Nat :=
  match alistGet t s.maxCache with
  | some cached => (cached, s, 0)
  | none =>
      let computed :=
        maxes (fun e => (s.fnodeOf e).scoreSoFarFor t) (getDefault s.typeCache t [])
      (computed, { s with maxCache := alistSet t computed s.maxCache }, 1)

/-- `BestClusterLhs.fnodes` instrumented with an evaluation counter: the third
component counts how many times the `clusters(...)` computation ran during the
call (0 when the type has no fnodes, since the code returns `[]` before
clustering, else 1). -/
def bestClusterFnodesCounted (t : TypeName) (opts : ClusterOptions) (s : BoundRuleset) :
    List ElemId × BoundRuleset × Nat :=
  let fnodesOfType := getDefault s.typeCache t []
  if fnodesOfType.isEmpty then ([], s, 0)
  else
    let clusts :=
      clusters fnodesOfType opts.splittingDistance (fun a b => s.doc.eltDistance a b opts)
    let scored := clusts.map (fun c => (c, sumQ (c.map (fun e => (s.fnodeOf e).scoreFor t))))
    (((maxBy (fun p => p.2) scored).map (fun p => p.1)).getD [], s, 1)

/-! ### The executor (`src/ruleset.js`) -/

/-- `Lhs.checkFact` (`lhs.js`): a `dom()` rule's RHS must specify a type. -/
def Lhs.checkFact (l : Lhs) (fact : Fact) : Except Err Unit :=
  match l with
  | .dom _ => if fact.type.isNone then .error .domRuleMustAssignType else .ok ()
  | _ => .ok ()

/-- The `updateFnode` inner function of `InwardRule.results` (`ruleset.js`):
compute the fact, check it, redirect to the target fnode, then apply score
conservation, the score factor, and the note, in that order. The state
reached when an error is thrown is returned alongside the error. -/
def updateFnode (lhs : Lhs) (factFn : Fnode → Option TypeName → Fact)
    (s0 : BoundRuleset) (leftId : ElemId) : Except Err ElemId × BoundRuleset :=
  let leftType := lhs.guaranteedType
  let fact := factFn (s0.fnodeOf leftId) leftType
  match lhs.checkFact fact with
  | .error e => (.error e, s0)
  | .ok _ =>
      let rightId := fact.element.getD leftId
      let s1 := s0.fnodeForElement rightId
      let rightType := match fact.type with | some t => some t | none => leftType
      let conserved : Except Err BoundRuleset :=
        if fact.conserveScore then
          match leftType with
          | some lt =>
              let rt := fact.type.getD lt
              .ok (s1.setFnode ((s1.fnodeOf rightId).conserveScoreFrom (s1.fnodeOf leftId) lt rt))
          | none => .error .conserveScoreWithoutType
        else .ok s1
      match conserved with
      | .error e => (.error e, s1)
      | .ok s2 =>
          let scoredStep : Except Err BoundRuleset :=
            match fact.score with
            | some x =>
                match rightType with
                | some rt => .ok (s2.setFnode ((s2.fnodeOf rightId).multiplyScoreFor rt x))
                | none => .error .scoreWithoutInferableType
            | none => .ok s2
          match scoredStep with
          | .error e => (.error e, s2)
          | .ok s3 =>
              if fact.type.isSome || fact.note.isSome then
                match rightType with
                | none => (.error .noteWithoutInferableType, s3)
                | some rt =>
                    match (s3.fnodeOf rightId).setNoteFor rt fact.note with
                    | .error e => (.error e, s3)
                    | .ok f => (.ok rightId, s3.setFnode f)
              else (.ok rightId, s3)

/-- The `forEach(updateFnode, leftFnodes)` loop of `InwardRule.results`,
accumulating the de-duplicated `returnedFnodes` set. -/
def updateLoop (lhs : Lhs) (factFn : Fnode → Option TypeName → Fact) :
    List ElemId → List ElemId → BoundRuleset → Except Err (List ElemId) × BoundRuleset
  | [], returned, s => (.ok returned, s)
  | e :: rest, returned, s =>
      match updateFnode lhs factFn s e with
      | (.error err, s1) => (.error err, s1)
      | (.ok rightId, s1) =>
          updateLoop lhs factFn rest
            (if rightId ∈ returned then returned else returned ++ [rightId]) s1

/-- `InwardRule.results` (`ruleset.js`): double execution is an internal
error; otherwise materialize the LHS matches, merge each fact, mark the rule
done, and record each returned fnode in the type cache under every type it
now bears. -/
def InwardRule.results (r : Rule) (rid : Option Nat) (s : BoundRuleset) :
    Except Err (List ElemId) × BoundRuleset :=
  match r.rhs with
  | .outward _ => (.ok [], s)
  | .inward _ factFn =>
      if (match rid with | some i => decide (i ∈ s.doneRules) | none => false) then
        (.error .doubleExecution, s)
      else
        let stepped := r.lhs.fnodes s
        match updateLoop r.lhs factFn stepped.1 [] stepped.2 with
        | (.error e, s2) => (.error e, s2)
        | (.ok returned, s2) =>
            let s3 :=
              match rid with
              | some i => { s2 with doneRules := s2.doneRules ++ [i] }
              | none => s2
            let s4 :=
              returned.foldl
                (fun st e =>
                  (st.fnodeOf e).typesSoFar.foldl
                    (fun st2 t => { st2 with typeCache := alistAddMem t e st2.typeCache })
                    st)
                s3
            (.ok returned, s4)

/-- `OutwardRule.results` (`ruleset.js`): compute the LHS matches and pass
them out; out rules are never marked done. `out(key)` default callbacks are
the identity (`rhs.js` is not among the sources). -/
def OutwardRule.results (r : Rule) (s : BoundRuleset) :
    Except Err (List ElemId) × BoundRuleset :=
  let stepped := r.lhs.fnodes s
  (.ok stepped.1, stepped.2)

/-- `results`, dispatched by rule kind. -/
def Rule.results (r : Rule) (rid : Option Nat) (s : BoundRuleset) :
    Except Err (List ElemId) × BoundRuleset :=
  match r.rhs with
  | .inward _ _ => InwardRule.results r rid s
  | .outward _ => OutwardRule.results r s

/-! ### The planner (`src/ruleset.js`) -/

/-- `Rule.prerequisites(ruleset)`: emitters of every finalized type, then
adders of every mentioned type, accumulated as a `NiceSet`. -/
def Rule.prerequisites (r : Rule) (s : BoundRuleset) : List Nat :=
  let withEmitters :=
    r.typesFinalized.foldl (fun acc t => dedupUnion acc (s.inwardRulesThatCouldEmit t)) []
  r.lhs.typesMentioned.foldl
    (fun acc t => dedupUnion acc (s.inwardRulesThatCouldAdd t)) withEmitters

/-- The map built by `_prerequisitesTo`: undone prerequisite rule (by index)
to the rules that need it; the root rule is tagged `none` because a synthetic
out rule has no index. -/
abbrev PrereqMap := List (Nat × List (Option Nat))

def prereqHasKey (m : PrereqMap) (k : Nat) : Bool :=
  (alistGet k m).isSome

/-- The depth-first walk of `_prerequisitesTo` rendered with an explicit
stack of (pending prerequisite list, requiring rule) frames, the standard
defunctionalization of the source's recursion (same visit order, same map
insertion order): done prerequisites are pruned; a prerequisite already in
the map is hooked up and not descended into again. Fuel bounds the number of
machine steps; any sufficiently large fuel computes the same map. -/
def prereqRun (s : BoundRuleset) :
    Nat → List (List Nat × Option Nat) → PrereqMap → PrereqMap
  | 0, _, m => m
  | _ + 1, [], m => m
  | fuel + 1, (ps, tag) :: stack, m =>
      match ps with
      | [] => prereqRun s fuel stack m
      | p :: rest =>
          if p ∈ s.doneRules then prereqRun s fuel ((rest, tag) :: stack) m
          else
            let already := prereqHasKey m p
            let m1 := alistPush p tag m
            if already then prereqRun s fuel ((rest, tag) :: stack) m1
            else
              match s.rules[p]? with
              | some pr =>
                  prereqRun s fuel ((pr.prerequisites s, some p) :: (rest, tag) :: stack) m1
              | none => prereqRun s fuel ((rest, tag) :: stack) m1

/-- A machine-step budget that the walk can never exhaust: every step either
retires a pending prerequisite entry or pops a frame, and descent frames are
opened at most once per rule. -/
def BoundRuleset.prereqFuel (s : BoundRuleset) (r : Rule) : Nat :=
  2 + (r.prerequisites s).length +
    s.rules.foldl (fun acc pr => acc + (pr.prerequisites s).length + 2) 0

/-- `BoundRuleset._prerequisitesTo` (`ruleset.js`). -/
def BoundRuleset.prerequisitesTo (s : BoundRuleset) (fuel : Nat) (r : Rule)
    (tag : Option Nat) (m : PrereqMap) : PrereqMap :=
  prereqRun s fuel [(r.prerequisites s, tag)] m

/-! ### Topological sort (modelled from the spec)

The `toposort` of the absent `utils.js` is modelled from the spec and from
the behavior its test suite pins down: a depth-first walk with an
in-progress set for cycle detection, visiting for each node the nodes that
need it, emitting needers before the needed, and raising `cycle` on a back
edge. -/

structure TopoState (ν : Type) where
  todo : List ν
  inProgress : List ν
  ret : List ν

/-- Depth-first frames: enter a node, or retire it after its needers. -/
inductive TFrame (ν : Type) where
  | visit (n : ν)
  | finish (n : ν)

/-- The depth-first sort rendered with an explicit frame stack (the standard
defunctionalization of the recursion, with identical traversal order): a node
already in progress is a back edge and raises `cycle`; a node not in the todo
set is skipped; otherwise its needers are visited and it is then retired into
the output, so needers precede the needed. Fuel bounds the machine steps. -/
def topoRun {ν : Type} [DecidableEq ν] (needers : ν → List ν) :
    Nat → List (TFrame ν) → TopoState ν → Except Err (TopoState ν)
  | 0, _, _ => .error .cycle
  | _ + 1, [], st => .ok st
  | fuel + 1, frame :: rest, st =>
      match frame with
      | .visit n =>
          if n ∈ st.inProgress then .error .cycle
          else if n ∈ st.todo then
            topoRun needers fuel ((needers n).map .visit ++ .finish n :: rest)
              { st with inProgress := n :: st.inProgress }
          else topoRun needers fuel rest st
      | .finish n =>
          topoRun needers fuel rest ⟨st.todo.erase n, st.inProgress.erase n, st.ret ++ [n]⟩

/-- A step budget the sort cannot exhaust when every reachable node lies in
`nodes`: each node is expanded at most once. -/
def topoFuel {ν : Type} (nodes : List ν) (needers : ν → List ν) : Nat :=
  2 + 2 * nodes.length + nodes.foldl (fun acc n => acc + (needers n).length + 2) 0

/-- Modelled from the spec: `toposort(nodes, nodesThatNeed)` of the absent
`utils.js`, whose behavior its test suite pins down. -/
def toposort {ν : Type} [DecidableEq ν] (nodes : List ν) (needers : ν → List ν) :
    Except Err (List ν) :=
  match topoRun needers (topoFuel nodes needers) (nodes.map .visit) ⟨nodes, [], []⟩ with
  | .error e => .error e
  | .ok st => .ok st.ret

/-! ### Plan execution and the query surface (`src/ruleset.js`) -/

/-- Run the already-sorted prerequisite rules, leaves first. -/
def runRules (s : BoundRuleset) : List (Option Nat) → Except Err Unit × BoundRuleset
  | [] => (.ok (), s)
  | n :: rest =>
      match n with
      | none => runRules s rest
      | some rid =>
          match s.rules[rid]? with
          | none => runRules s rest
          | some r =>
              match Rule.results r (some rid) s with
              | (.error e, s1) => (.error e, s1)
              | (.ok _, s1) => runRules s1 rest

/-- `BoundRuleset._execute` (`ruleset.js`): build the prerequisite map, sort
it topologically (a `CycleError` is re-raised as the `cycle` error before any
rule has run), execute the plan in reverse (leaves first), and finish with
the requested rule, whose results are returned. -/
def BoundRuleset.execute (s : BoundRuleset) (root : Rule) (rootTag : Option Nat) :
    Except Err (List ElemId) × BoundRuleset :=
  let m := s.prerequisitesTo (s.prereqFuel root) root rootTag []
  match
    toposort (m.map (fun p => (some p.1 : Option Nat)))
      (fun n => match n with | some p => getDefault m p [] | none => [])
  with
  | .error _ => (.error .cycle, s)
  | .ok sorted =>
      match runRules s sorted.reverse with
      | (.error e, s1) => (.error e, s1)
      | (.ok _, s1) => Rule.results root rootTag s1

/-- The argument shapes of `BoundRuleset.get` exercised here: an out-rule key
or an arbitrary LHS (for which a temporary out rule is synthesized); handing
in a DOM element performs only an fnode lookup and runs no rules. -/
inductive GetArg where
  | key (k : String)
  | byLhs (l : Lhs)

/-- `BoundRuleset.get` (`ruleset.js`). -/
def BoundRuleset.get (s : BoundRuleset) : GetArg → Except Err (List ElemId) × BoundRuleset
  | .key k =>
      match alistGet k s.outRules with
      | some rid =>
          match s.rules[rid]? with
          | some r => s.execute r (some rid)
          | none => (.error .missingOutKey, s)
      | none => (.error .missingOutKey, s)
  | .byLhs l => s.execute ⟨l, .outward "outKey"⟩ none

/-! ### The simulated-annealing optimizer (`src/optimizers.js`)

Randomness and the floating-point `Math.exp` merit test are abstracted: the
subclass-supplied `randomTransition` receives the iteration counter `n` in
place of its internal random draws, and `accepts minusDelta temperature n`
abstracts `Math.exp(minusDelta / (BOLTZMANNS * temperature)) > Math.random()`
(for an uphill move, `minusDelta < 0`, that probability is strictly between 0
and 1 whenever the magnitudes make `exp` representable, so both outcomes are
realizable; for an equal-cost move it is 1, which always accepts). -/

def INITIAL_TEMPERATURE : ℚ := 5000
def COOLING_STEPS : Nat := 5000
def COOLING_FRACTION : ℚ := mkRat 19 20
def STEPS_PER_TEMP : Nat := 1000

/-- The abstract annealer: the three methods a concrete subclass supplies. -/
structure Annealer (σ : Type) where
  initialSolution : σ
  randomTransition : σ → Nat → σ
  solutionCost : σ → ℚ

/-- Loop state of `anneal`, instrumented with the list of all solutions
visited (the initial one and every proposed transition), newest first. -/
structure AnnealState (σ : Type) where
  temperature : ℚ
  currentSolution : σ
  currentCost : ℚ
  n : Nat
  visited : List σ

/-- The inner loop of `anneal` (`optimizers.js`): propose a transition,
accept downhill moves, accept uphill moves per the merit test, and break out
early when the cost has returned to the cooling step's starting cost. -/
def annealInner {σ : Type} (prob : Annealer σ) (accepts : ℚ → ℚ → Nat → Bool)
    (startCost : ℚ) : Nat → AnnealState σ → AnnealState σ
  | 0, st => st
  | j + 1, st =>
      let newSolution := prob.randomTransition st.currentSolution st.n
      let newCost := prob.solutionCost newSolution
      let stv := { st with visited := newSolution :: st.visited }
      let st1 :=
        if newCost < stv.currentCost then
          { stv with currentSolution := newSolution, currentCost := newCost }
        else
          if accepts (qsub stv.currentCost newCost) stv.temperature stv.n then
            { stv with currentSolution := newSolution, currentCost := newCost }
          else stv
      let st2 := { st1 with n := st1.n + 1 }
      if startCost = st2.currentCost then st2
      else annealInner prob accepts startCost j st2

/-- The cooling loop of `anneal` (`optimizers.js`): run the inner loop, then
multiply the temperature by the cooling fraction. -/
def annealOuter {σ : Type} (prob : Annealer σ) (accepts : ℚ → ℚ → Nat → Bool) :
    Nat → AnnealState σ → AnnealState σ
  | 0, st => st
  | i + 1, st =>
      let st1 := annealInner prob accepts st.currentCost STEPS_PER_TEMP st
      annealOuter prob accepts i { st1 with temperature := qmul st1.temperature COOLING_FRACTION }

/-- `Annealer.anneal` (`optimizers.js`): returns `currentSolution` at the end
of the cooling loop, paired with the instrumented list of visited solutions. -/
def Annealer.anneal {σ : Type} (prob : Annealer σ) (accepts : ℚ → ℚ → Nat → Bool) :
    σ × List σ :=
  let st :=
    annealOuter prob accepts COOLING_STEPS
      ⟨INITIAL_TEMPERATURE, prob.initialSolution, prob.solutionCost prob.initialSolution, 0,
       [prob.initialSolution]⟩
  (st.currentSolution, st.visited)

/-- The index invariant the ruleset constructor establishes: every rule
indexed as an adder of a type is also indexed as an emitter of it (stated
over the keys of the adder index, so it is decidable on concrete states). -/
def WellIndexed (s : BoundRuleset) : Prop :=
  ∀ t ∈ s.rulesThatCouldAdd.map (fun p => p.1),
    ∀ x ∈ getDefault s.rulesThatCouldAdd t [], x ∈ getDefault s.rulesThatCouldEmit t []

instance (s : BoundRuleset) : Decidable (WellIndexed s) := by
  unfold WellIndexed
  infer_instance

/-- Well-formedness of the element cache: each fnode is stored under its own
element, the invariant JavaScript's element-keyed `Map` maintains. -/
def ElementKeyed (s : BoundRuleset) : Prop :=
  ∀ p ∈ s.elementCache, p.2.element = p.1

instance (s : BoundRuleset) : Decidable (ElementKeyed s) := by
  unfold ElementKeyed
  infer_instance

/-- Modelled from the spec, as the refinement reference for the prerequisite
relation of section 4.1: emitters of every type the rule finalizes, together
with adders of every type mentioned by the LHS but not finalized. -/
def prerequisitesSpec (r : Rule) (s : BoundRuleset) : List Nat :=
  let withEmitters :=
    r.typesFinalized.foldl (fun acc t => dedupUnion acc (s.inwardRulesThatCouldEmit t)) []
  (r.lhs.typesMentioned.filter (fun t => !(r.typesFinalized.contains t))).foldl
    (fun acc t => dedupUnion acc (s.inwardRulesThatCouldAdd t)) withEmitters

/-! ### Concrete fixtures used by witnesses and counterexamples -/

/-- A two-element document whose `p` selector matches both elements. -/
def exDoc : Document := ⟨fun sel => if sel = "p" then [1, 2] else [], fun _ _ _ => 0⟩

def exFactFn : Fnode → Option TypeName → Fact :=
  fun _ _ => ⟨none, some "a", some 2, none, false⟩

/-- `rule(dom(p), type(a).score(2))`. -/
def exInwardRule : Rule := ⟨.dom "p", .inward ⟨true, ["a"]⟩ exFactFn⟩

/-- `rule(type(a).max(), out(best))`. -/
def exOutRule : Rule := ⟨.typeMax "a", .outward "best"⟩

def exRules : List Rule := [exInwardRule, exOutRule]

def exBound : BoundRuleset :=
  match Ruleset.construct exRules with
  | .ok rs => rs.against exDoc
  | .error _ => (Ruleset.mk exRules [] [] [] []).against exDoc

/-- The same bound ruleset with the inward rule already marked done. -/
def exDone : BoundRuleset := { exBound with doneRules := [0] }

/-- `rule(type(a), typeIn(a, b).props(...))`: a typed LHS with an RHS that
could change the type. -/
def exTypedRule : Rule := ⟨.ofType "a", .inward ⟨true, ["a", "b"]⟩ exFactFn⟩

/-- A document with no matches and a constant distance metric. -/
def trivialDoc : Document := ⟨fun _ => [], fun _ _ _ => 0⟩

def factToB : Fnode → Option TypeName → Fact :=
  fun _ _ => ⟨none, some "b", none, none, false⟩

def factToA : Fnode → Option TypeName → Fact :=
  fun _ _ => ⟨none, some "a", none, none, false⟩

/-- `rule(type(a), type(b))` and `rule(type(b), type(a))`: a cyclic
prerequisite graph. -/
def cycleRules : List Rule :=
  [⟨.ofType "a", .inward ⟨true, ["b"]⟩ factToB⟩,
   ⟨.ofType "b", .inward ⟨true, ["a"]⟩ factToA⟩]

def boundCycle : BoundRuleset :=
  match Ruleset.construct cycleRules with
  | .ok rs => rs.against trivialDoc
  | .error _ => (Ruleset.mk cycleRules [] [] [] []).against trivialDoc

/-- A state with one fnode of type `t` (score 2) and empty caches. -/
def exClusterState : BoundRuleset :=
  ⟨trivialDoc, [], [], [], [], [], [], [("t", [5])], [(5, ⟨5, [("t", ⟨2, none⟩)]⟩)], []⟩

/-- The same state with a populated per-type max cache. -/
def exMaxState : BoundRuleset := { exClusterState with maxCache := [("t", [5])] }

/-- `rule(type(a), props(...))` with no `typeIn`: the RHS could change type
but declares no possible types, although the LHS guarantees a type. -/
def exPropsRule : Rule := ⟨.ofType "a", .inward ⟨true, []⟩ exFactFn⟩

/-- A fact that emits no type at all. -/
def exNoTypeFactFn : Fnode → Option TypeName → Fact :=
  fun _ _ => ⟨none, none, none, none, false⟩

/-- A `dom()` rule whose RHS declares it may emit type `a` but whose facts
carry no type. -/
def exDomTypedRule : Rule := ⟨.dom "p", .inward ⟨true, ["a"]⟩ exNoTypeFactFn⟩

def exDomBound : BoundRuleset :=
  match Ruleset.construct [exDomTypedRule] with
  | .ok rs => rs.against exDoc
  | .error _ => (Ruleset.mk [exDomTypedRule] [] [] [] []).against exDoc

/-- Index of the last outward rule carrying a given key, if any. -/
def lastOutIdx : List Rule → String → Option Nat
  | [], _ => none
  | r :: rest, k =>
      match lastOutIdx rest k with
      | some n => some (n + 1)
      | none =>
          match r.rhs with
          | .outward k2 => if k2 = k then some 0 else none
          | .inward _ _ => none

/-- Two outward rules sharing the key `dup`. -/
def exDupRules : List Rule :=
  [⟨.ofType "a", .outward "dup"⟩, ⟨.typeMax "a", .outward "dup"⟩]

def exDupBound : BoundRuleset :=
  match Ruleset.construct exDupRules with
  | .ok rs => rs.against trivialDoc
  | .error _ => (Ruleset.mk exDupRules [] [] [] []).against trivialDoc

/-- A fact emitting type `b` with score 2 and `conserveScore` set:
`type(b).score(2).conserveScore()`. -/
def exConserveFactFn : Fnode → Option TypeName → Fact :=
  fun _ _ => ⟨none, some "b", some 2, none, true⟩

/-- A fact with a type (so `dom` rules pass `checkFact`) that nevertheless
requests score conservation. -/
def exDomConserveFactFn : Fnode → Option TypeName → Fact :=
  fun _ _ => ⟨none, some "b", none, none, true⟩

/-- A state holding element 7 with an `a` score of 3. -/
def exConserveState : BoundRuleset :=
  ⟨trivialDoc, [], [], [], [], [], [], [("a", [7])], [(7, ⟨7, [("a", ⟨3, none⟩)]⟩)], []⟩

/-- The state above after `type(b).score(2).conserveScore()` has been merged
into element 7: the `b` score is the conserved `a` score 3 times the fact's
own factor 2. -/
def exConserveDone : BoundRuleset :=
  { exConserveState with
    elementCache := [(7, ⟨7, [("a", ⟨3, none⟩), ("b", ⟨6, none⟩)]⟩)] }

/-- The invariant of the annealing loop when no uphill move is ever
accepted: the current cost is a lower bound on the cost of every visited
solution and is the cost of the current solution. -/
def AnnealInv {σ : Type} (prob : Annealer σ) (st : AnnealState σ) : Prop :=
  (∀ x ∈ st.visited, st.currentCost ≤ prob.solutionCost x) ∧
    st.currentCost = prob.solutionCost st.currentSolution

deriving instance DecidableEq for AnnealState

/-- An annealing problem whose random walk ratchets 0 → 1 → 2 and then sits
at 2, while solution 1 has cost 3/10^20 and every other solution has the
higher cost 5/10^20 (costs this small keep every uphill merit strictly
between 0 and 1, so any accept/reject pattern is realizable by some sequence
of `Math.random()` draws). -/
def annealProbEx : Annealer Nat :=
  ⟨0, fun sol _ => if sol < 2 then sol + 1 else 2,
   fun sol => if sol = 1 then mkRat 3 (10 ^ 20) else mkRat 5 (10 ^ 20)⟩

/-- A merit oracle that accepts the uphill move proposed at overall step 1
and rejects every other uphill move. -/
def annealAcceptsEx : ℚ → ℚ → Nat → Bool := fun _ _ n => decide (n = 1)

theorem qmul_eq (a b : ℚ) : qmul a b = a * b := by
  rw [qmul, Rat.mul_def, Rat.normalize_eq_mkRat]

theorem qadd_eq (a b : ℚ) : qadd a b = a + b := (Rat.add_def' a b).symm

theorem qsub_eq (a b : ℚ) : qsub a b = a - b := (Rat.sub_def' a b).symm

/-! ### Lemmas about the association-list and set helpers -/

theorem alistGet_alistSet {κ ν : Type} [DecidableEq κ] (k k2 : κ) (v : ν) :
    ∀ m : List (κ × ν),
      alistGet k (alistSet k2 v m) = if k = k2 then some v else alistGet k m := by
  intro m
  induction m with
  | nil =>
      simp only [alistSet, alistGet]
      by_cases h : k = k2
      · simp [h]
      · simp [h, Ne.symm h]
  | cons p rest ih =>
      by_cases hp : p.1 = k2
      · simp only [alistSet, if_pos hp, alistGet]
        by_cases hk : k = k2
        · simp [hk]
        · have hpk : ¬(p.1 = k) := fun hh => hk ((hh.symm.trans hp))
          simp [Ne.symm hk, hpk, hk]
      · simp only [alistSet, if_neg hp, alistGet]
        by_cases hpk : p.1 = k
        · have hk : ¬(k = k2) := fun hh => hp (hpk.trans hh)
          simp [hpk, hk]
        · simp [hpk, ih]

theorem alistGet_alistPush {κ α : Type} [DecidableEq κ] (k t : κ) (v : α) :
    ∀ m : List (κ × List α),
      alistGet t (alistPush k v m) =
        if t = k then some (getDefault m k [] ++ [v]) else alistGet t m := by
  intro m
  induction m with
  | nil =>
      simp only [alistPush, alistGet, getDefault]
      by_cases h : t = k
      · simp [h]
      · simp [h, Ne.symm h]
  | cons p rest ih =>
      by_cases hp : p.1 = k
      · simp only [alistPush, if_pos hp, alistGet, getDefault, if_pos hp]
        by_cases ht : t = k
        · have hpt : p.1 = t := hp.trans ht.symm
          simp [hpt, ht]
        · have hpt : ¬(p.1 = t) := fun hh => ht (hh.symm.trans hp)
          simp [hpt, ht]
      · simp only [alistPush, if_neg hp, alistGet, getDefault, if_neg hp]
        by_cases hpt : p.1 = t
        · have ht : ¬(t = k) := fun hh => hp (hpt.trans hh)
          simp [hpt, ht]
        · simp only [if_neg hpt]
          rw [ih]
          rfl

theorem mem_getDefault_alistPush {κ α : Type} [DecidableEq κ] [DecidableEq α]
    (k : κ) (v : α) (t : κ) (x : α) (m : List (κ × List α)) :
    x ∈ getDefault (alistPush k v m) t [] ↔
      (t = k ∧ x = v) ∨ x ∈ getDefault m t [] := by
  unfold getDefault
  rw [alistGet_alistPush]
  by_cases h : t = k
  · subst h
    simp [getDefault]
    tauto
  · simp [h]

theorem prereqHasKey_alistPush (k : Nat) (v : Option Nat) (p : Nat) (m : PrereqMap) :
    prereqHasKey (alistPush k v m) p = true ↔ p = k ∨ prereqHasKey m p = true := by
  unfold prereqHasKey
  rw [alistGet_alistPush]
  by_cases h : p = k
  · simp [h]
  · simp [h]

theorem mem_dedupInsert {α : Type} [DecidableEq α] (xs : List α) (x y : α) :
    y ∈ dedupInsert xs x ↔ y ∈ xs ∨ y = x := by
  by_cases h : x ∈ xs
  · simp only [dedupInsert, if_pos h]
    constructor
    · exact fun hy => Or.inl hy
    · rintro (hy | rfl)
      · exact hy
      · exact h
  · simp [dedupInsert, if_neg h]

theorem mem_dedupUnion {α : Type} [DecidableEq α] (ys : List α) :
    ∀ (xs : List α) (y : α), y ∈ dedupUnion xs ys ↔ y ∈ xs ∨ y ∈ ys := by
  induction ys with
  | nil => simp [dedupUnion]
  | cons z rest ih =>
      intro xs y
      show y ∈ dedupUnion (dedupInsert xs z) rest ↔ _
      rw [ih, mem_dedupInsert]
      simp only [List.mem_cons]
      tauto

theorem mem_foldl_dedupUnion {α β : Type} [DecidableEq α] (f : β → List α) :
    ∀ (l : List β) (init : List α) (x : α),
      x ∈ l.foldl (fun acc t => dedupUnion acc (f t)) init ↔
        x ∈ init ∨ ∃ t ∈ l, x ∈ f t := by
  intro l
  induction l with
  | nil => simp
  | cons t rest ih =>
      intro init x
      show x ∈ rest.foldl _ (dedupUnion init (f t)) ↔ _
      rw [ih, mem_dedupUnion]
      simp only [List.mem_cons]
      constructor
      · rintro ((h | h) | ⟨u, hu, hx⟩)
        · exact Or.inl h
        · exact Or.inr ⟨t, Or.inl rfl, h⟩
        · exact Or.inr ⟨u, Or.inr hu, hx⟩
      · rintro (h | ⟨u, (rfl | hu), hx⟩)
        · exact Or.inl (Or.inl h)
        · exact Or.inl (Or.inr hx)
        · exact Or.inr ⟨u, hu, hx⟩

/-! ### State-preservation lemmas for the executor -/

@[simp]
theorem setFnode_doneRules (s : BoundRuleset) (f : Fnode) :
    (s.setFnode f).doneRules = s.doneRules := rfl

@[simp]
theorem fnodeForElement_doneRules (s : BoundRuleset) (e : ElemId) :
    (s.fnodeForElement e).doneRules = s.doneRules := rfl

theorem foldl_fnodeForElement_doneRules (l : List ElemId) :
    ∀ s : BoundRuleset,
      (l.foldl (fun st e => st.fnodeForElement e) s).doneRules = s.doneRules := by
  induction l with
  | nil => intro s; rfl
  | cons e rest ih =>
      intro s
      rw [List.foldl_cons, ih, fnodeForElement_doneRules]

theorem fnodes_doneRules (l : Lhs) (s : BoundRuleset) :
    (l.fnodes s).2.doneRules = s.doneRules := by
  cases l with
  | dom sel => exact foldl_fnodeForElement_doneRules _ s
  | ofType t => rfl
  | typeMax t =>
      simp only [Lhs.fnodes]
      split <;> simp
  | bestCluster t opts =>
      simp only [Lhs.fnodes]
      split <;> simp
  | and ts => cases ts <;> rfl

theorem updateFnode_doneRules (lhs : Lhs) (factFn : Fnode → Option TypeName → Fact)
    (s : BoundRuleset) (leftId : ElemId) :
    (updateFnode lhs factFn s leftId).2.doneRules = s.doneRules := by
  simp only [updateFnode]
  split
  · rfl
  · split
    · rename_i e heq
      split at heq
      · split at heq
        · simp at heq
        · rfl
      · simp at heq
    · rename_i s2 heq
      have hs2 : s2.doneRules = s.doneRules := by
        split at heq
        · split at heq
          · cases heq; rfl
          · simp at heq
        · cases heq; rfl
      split
      · rename_i e2 heq2
        split at heq2
        · split at heq2
          · cases heq2
          · exact hs2
        · simp at heq2
      · rename_i s3 heq2
        have hs3 : s3.doneRules = s.doneRules := by
          split at heq2
          · split at heq2
            · cases heq2; exact hs2
            · simp at heq2
          · cases heq2; exact hs2
        split
        · split
          · exact hs3
          · split
            · exact hs3
            · exact hs3
        · exact hs3

theorem updateLoop_doneRules (lhs : Lhs) (factFn : Fnode → Option TypeName → Fact) :
    ∀ (l returned : List ElemId) (s : BoundRuleset),
      (updateLoop lhs factFn l returned s).2.doneRules = s.doneRules := by
  intro l
  induction l with
  | nil => intro returned s; rfl
  | cons e rest ih =>
      intro returned s
      have h := updateFnode_doneRules lhs factFn s e
      unfold updateLoop
      rcases hu : updateFnode lhs factFn s e with ⟨res, s1⟩
      rw [hu] at h
      cases res with
      | error err => exact h
      | ok rightId =>
          rw [ih]
          exact h

theorem foldl_typeCacheAdd_doneRules (l : List ElemId) :
    ∀ s : BoundRuleset,
      (l.foldl
        (fun st e =>
          (st.fnodeOf e).typesSoFar.foldl
            (fun st2 t => { st2 with typeCache := alistAddMem t e st2.typeCache }) st)
        s).doneRules = s.doneRules := by
  have inner : ∀ (ts : List TypeName) (e : ElemId) (s : BoundRuleset),
      (ts.foldl (fun st2 t => { st2 with typeCache := alistAddMem t e st2.typeCache })
        s).doneRules = s.doneRules := by
    intro ts
    induction ts with
    | nil => intro e s; rfl
    | cons t rest ih => intro e s; rw [List.foldl_cons, ih]
  induction l with
  | nil => intro s; rfl
  | cons e rest ih =>
      intro s
      rw [List.foldl_cons, ih, inner]

/-! ### The planner prunes already-executed rules -/

theorem prereqRun_keys_not_done (s : BoundRuleset) :
    ∀ (fuel : Nat) (stack : List (List Nat × Option Nat)) (m : PrereqMap),
      (∀ k, prereqHasKey m k = true → k ∉ s.doneRules) →
      ∀ k, prereqHasKey (prereqRun s fuel stack m) k = true → k ∉ s.doneRules := by
  intro fuel
  induction fuel with
  | zero => exact fun stack m hm k hk => hm k hk
  | succ f ih =>
      intro stack m hm k hk
      cases stack with
      | nil => exact hm k hk
      | cons fr stack2 =>
          rcases fr with ⟨ps, tag⟩
          cases ps with
          | nil =>
              simp only [prereqRun] at hk
              exact ih stack2 m hm k hk
          | cons p rest =>
              by_cases hdone : p ∈ s.doneRules
              · simp only [prereqRun, if_pos hdone] at hk
                exact ih _ m hm k hk
              · have hm1 : ∀ k2, prereqHasKey (alistPush p tag m) k2 = true →
                    k2 ∉ s.doneRules := by
                  intro k2 hk2
                  rcases (prereqHasKey_alistPush p tag k2 m).mp hk2 with hpk | hmk
                  · exact hpk ▸ hdone
                  · exact hm k2 hmk
                simp only [prereqRun, if_neg hdone] at hk
                by_cases halready : prereqHasKey m p = true
                · simp only [halready, if_pos] at hk
                  exact ih _ _ hm1 k hk
                · simp only [eq_false_of_ne_true halready, if_neg, Bool.false_eq_true,
                    not_false_iff] at hk
                  cases hrp : s.rules[p]? with
                  | some pr =>
                      rw [hrp] at hk
                      exact ih _ _ hm1 k hk
                  | none =>
                      rw [hrp] at hk
                      exact ih _ _ hm1 k hk

/-- Keys of the map `_prerequisitesTo` builds are never done rules. -/
theorem prerequisitesTo_keys_not_done (s : BoundRuleset) (fuel : Nat) (r : Rule)
    (tag : Option Nat) (k : Nat)
    (hk : prereqHasKey (s.prerequisitesTo fuel r tag []) k = true) :
    k ∉ s.doneRules := by
  refine prereqRun_keys_not_done s fuel [(r.prerequisites s, tag)] [] ?_ k hk
  intro k2 hk2
  simp [prereqHasKey, alistGet] at hk2

/-! ### C1: inward rules run at most once -/

theorem results_marks_done (r : Rule) (em : Emissions)
    (factFn : Fnode → Option TypeName → Fact) (rid : Nat) (s s2 : BoundRuleset)
    (out : List ElemId) (hin : r.rhs = .inward em factFn)
    (h : Rule.results r (some rid) s = (.ok out, s2)) : rid ∈ s2.doneRules := by
  rw [Rule.results, hin] at h
  rw [InwardRule.results, hin] at h
  simp only at h
  by_cases hdone : rid ∈ s.doneRules
  · simp [hdone] at h
  · rw [if_neg (by simp [hdone])] at h
    rcases hu : updateLoop r.lhs factFn (r.lhs.fnodes s).1 [] (r.lhs.fnodes s).2 with ⟨res, s1⟩
    rw [hu] at h
    cases res with
    | error e => simp at h
    | ok returned =>
        simp only at h
        injection h with h1 h2
        have hdr := foldl_typeCacheAdd_doneRules returned
          { s1 with doneRules := s1.doneRules ++ [rid] }
        rw [← h2, hdr]
        simp

theorem results_double_execution (r : Rule) (em : Emissions)
    (factFn : Fnode → Option TypeName → Fact) (rid : Nat) (s : BoundRuleset)
    (hin : r.rhs = .inward em factFn) (hdone : rid ∈ s.doneRules) :
    Rule.results r (some rid) s = (.error .doubleExecution, s) := by
  rw [Rule.results, hin, InwardRule.results, hin]
  simp [hdone]

/-- C1: for every bound ruleset and inward rule R, the executor runs R at most
once per bound-ruleset lifetime: (1) a successful `results()` records R in the
done-rule set; (2) every prerequisite-map key of a later plan is an undone
rule, so done rules are pruned from later plans; (3) a second `results()`
invocation on an already-done inward rule raises `doubleExecution` and leaves
the bound ruleset untouched, applying no score multiplications. -/
theorem C1_inward_rules_execute_at_most_once :
    (∀ (r : Rule) (em : Emissions) (factFn : Fnode → Option TypeName → Fact)
       (rid : Nat) (s s2 : BoundRuleset) (out : List ElemId),
       r.rhs = .inward em factFn →
       Rule.results r (some rid) s = (.ok out, s2) → rid ∈ s2.doneRules) ∧
    (∀ (s : BoundRuleset) (fuel : Nat) (r : Rule) (tag : Option Nat) (k : Nat),
       prereqHasKey (s.prerequisitesTo fuel r tag []) k = true → k ∉ s.doneRules) ∧
    (∀ (r : Rule) (em : Emissions) (factFn : Fnode → Option TypeName → Fact)
       (rid : Nat) (s : BoundRuleset),
       r.rhs = .inward em factFn → rid ∈ s.doneRules →
       Rule.results r (some rid) s = (.error .doubleExecution, s)) := by
  refine ⟨?_, ?_, ?_⟩
  · intro r em factFn rid s s2 out hin h
    exact results_marks_done r em factFn rid s s2 out hin h
  · intro s fuel r tag k hk
    exact prerequisitesTo_keys_not_done s fuel r tag k hk
  · intro r em factFn rid s hin hdone
    exact results_double_execution r em factFn rid s hin hdone

theorem C1_inward_rules_execute_at_most_once_witness :
    0 ∈ (Rule.results exInwardRule (some 0) exBound).2.doneRules ∧
    (0 : Nat) ∉ exBound.doneRules ∧
    Rule.results exInwardRule (some 0) exDone = (.error .doubleExecution, exDone) := by
  refine ⟨?_, ?_, ?_⟩
  · have h1 : (Rule.results exInwardRule (some 0) exBound).1 = Except.ok [1, 2] := by decide
    refine C1_inward_rules_execute_at_most_once.1 exInwardRule ⟨true, ["a"]⟩ exFactFn 0 exBound
      (Rule.results exInwardRule (some 0) exBound).2 [1, 2] rfl ?_
    rw [← h1]
  · exact C1_inward_rules_execute_at_most_once.2.1 exBound 5 exOutRule (some 1) 0 (by decide)
  · exact C1_inward_rules_execute_at_most_once.2.2 exInwardRule ⟨true, ["a"]⟩ exFactFn 0 exDone
      rfl (by decide)

/-! ### C2: the code's prerequisite computation matches the spec relation -/

theorem alistGet_eq_some_mem {κ ν : Type} [DecidableEq κ] (k : κ) (v : ν) :
    ∀ m : List (κ × ν), alistGet k m = some v → ∃ p ∈ m, p.1 = k ∧ p.2 = v := by
  intro m
  induction m with
  | nil => simp [alistGet]
  | cons p rest ih =>
      intro h
      by_cases hp : p.1 = k
      · rw [alistGet, if_pos hp] at h
        injection h with h
        exact ⟨p, List.mem_cons_self p rest, hp, h⟩
      · rw [alistGet, if_neg hp] at h
        obtain ⟨q, hq, hh⟩ := ih h
        exact ⟨q, List.mem_cons_of_mem p hq, hh⟩

theorem alistGet_eq_none_of_not_key {κ ν : Type} [DecidableEq κ] (k : κ) :
    ∀ m : List (κ × ν), k ∉ m.map (fun p => p.1) → alistGet k m = none := by
  intro m
  induction m with
  | nil => intro h; rfl
  | cons p rest ih =>
      intro h
      simp only [List.map_cons, List.mem_cons] at h
      push_neg at h
      rw [alistGet, if_neg (fun hh => h.1 hh.symm)]
      exact ih h.2

theorem wellIndexed_adders_subset (s : BoundRuleset) (hWI : WellIndexed s)
    (t : TypeName) (x : Nat) (hx : x ∈ s.inwardRulesThatCouldAdd t) :
    x ∈ s.inwardRulesThatCouldEmit t := by
  by_cases hkey : t ∈ s.rulesThatCouldAdd.map (fun p => p.1)
  · exact hWI t hkey x hx
  · exfalso
    unfold BoundRuleset.inwardRulesThatCouldAdd getDefault at hx
    rw [alistGet_eq_none_of_not_key t s.rulesThatCouldAdd hkey] at hx
    simp at hx

theorem mem_prerequisites (r : Rule) (s : BoundRuleset) (x : Nat) :
    x ∈ Rule.prerequisites r s ↔
      (∃ t ∈ r.typesFinalized, x ∈ s.inwardRulesThatCouldEmit t) ∨
      (∃ t ∈ r.lhs.typesMentioned, x ∈ s.inwardRulesThatCouldAdd t) := by
  unfold Rule.prerequisites
  rw [mem_foldl_dedupUnion, mem_foldl_dedupUnion]
  simp

theorem mem_prerequisitesSpec (r : Rule) (s : BoundRuleset) (x : Nat) :
    x ∈ prerequisitesSpec r s ↔
      (∃ t ∈ r.typesFinalized, x ∈ s.inwardRulesThatCouldEmit t) ∨
      (∃ t, (t ∈ r.lhs.typesMentioned ∧ t ∉ r.typesFinalized) ∧
        x ∈ s.inwardRulesThatCouldAdd t) := by
  unfold prerequisitesSpec
  rw [mem_foldl_dedupUnion, mem_foldl_dedupUnion]
  simp [List.mem_filter]

theorem typesItCouldAdd_subset (r : Rule) (es as : List TypeName)
    (he : r.typesItCouldEmit = .ok es) (ha : r.typesItCouldAdd = .ok as) :
    ∀ t ∈ as, t ∈ es := by
  rw [Rule.typesItCouldAdd, he] at ha
  cases hg : r.lhs.guaranteedType with
  | none =>
      rw [hg] at ha
      injection ha with ha
      subst ha
      exact fun t ht => ht
  | some g =>
      rw [hg] at ha
      injection ha with ha
      subst ha
      intro t ht
      exact (List.mem_filter.mp ht).1

theorem mem_getDefault_pushAll (i : Nat) (ts : List TypeName) (t : TypeName) (x : Nat) :
    ∀ idx, x ∈ getDefault (pushAll i ts idx) t [] ↔
      x ∈ getDefault idx t [] ∨ (t ∈ ts ∧ x = i) := by
  induction ts with
  | nil => simp [pushAll]
  | cons u rest ih =>
      intro idx
      show x ∈ getDefault (pushAll i rest (alistPush u i idx)) t [] ↔ _
      rw [ih, mem_getDefault_alistPush]
      simp only [List.mem_cons]
      tauto

theorem constructGo_idx (rules : List Rule) :
    ∀ (i : Nat) (acc rs : Ruleset),
      Ruleset.constructGo rules i acc = .ok rs →
      (∀ t x, x ∈ getDefault acc.rulesThatCouldAdd t [] →
        x ∈ getDefault acc.rulesThatCouldEmit t []) →
      ∀ t x, x ∈ getDefault rs.rulesThatCouldAdd t [] →
        x ∈ getDefault rs.rulesThatCouldEmit t [] := by
  induction rules with
  | nil =>
      intro i acc rs h hacc
      rw [Ruleset.constructGo] at h
      injection h with h
      subst h
      exact hacc
  | cons r rest ih =>
      intro i acc rs h hacc
      rw [Ruleset.constructGo] at h
      cases hr : r.rhs with
      | outward k =>
          rw [hr] at h
          exact ih (i + 1) _ rs h hacc
      | inward em f =>
          rw [hr] at h
          cases he : r.typesItCouldEmit with
          | error e =>
              rw [he] at h
              simp at h
          | ok es =>
              rw [he] at h
              cases ha : r.typesItCouldAdd with
              | error e =>
                  rw [ha] at h
                  simp at h
              | ok as =>
                  rw [ha] at h
                  refine ih (i + 1) _ rs h ?_
                  intro t x hx
                  rcases (mem_getDefault_pushAll i as t x _).mp hx with hold | ⟨hts, hxi⟩
                  · exact (mem_getDefault_pushAll i es t x _).mpr (Or.inl (hacc t x hold))
                  · exact (mem_getDefault_pushAll i es t x _).mpr
                      (Or.inr ⟨typesItCouldAdd_subset r es as he ha t hts, hxi⟩)

theorem construct_wellIndexed (rules : List Rule) (rs : Ruleset) (doc : Document)
    (h : Ruleset.construct rules = .ok rs) : WellIndexed (rs.against doc) := by
  have hidx := constructGo_idx rules 0 ⟨rules, [], [], [], []⟩ rs h
    (by intro t x hx; simp [getDefault, alistGet] at hx)
  intro t _ x hx
  exact hidx t x hx

/-- C2: the prerequisite set the code computes — emitters of finalized types
unioned with adders of all mentioned types — coincides with the spec's
relation (emitters of finalized types plus adders of mentioned-but-not-
finalized types), because every indexed adder of a type is also an indexed
emitter of it (each rule's could-add set is its could-emit set minus the
LHS-guaranteed type), and the constructor establishes that index invariant. -/
theorem C2_prerequisites_match_spec_relation :
    (∀ (rules : List Rule) (rs : Ruleset) (doc : Document),
       Ruleset.construct rules = .ok rs → WellIndexed (rs.against doc)) ∧
    (∀ s : BoundRuleset, WellIndexed s →
       ∀ (r : Rule) (x : Nat), x ∈ Rule.prerequisites r s ↔ x ∈ prerequisitesSpec r s) ∧
    (∀ (r : Rule) (es : List TypeName) (g : TypeName),
       r.typesItCouldEmit = .ok es → r.lhs.guaranteedType = some g →
       r.typesItCouldAdd = .ok (es.filter (fun t => !(t == g)))) := by
  refine ⟨construct_wellIndexed, ?_, ?_⟩
  · intro s hWI r x
    rw [mem_prerequisites, mem_prerequisitesSpec]
    constructor
    · rintro (he | ⟨t, ht, hx⟩)
      · exact Or.inl he
      · by_cases hf : t ∈ r.typesFinalized
        · exact Or.inl ⟨t, hf, wellIndexed_adders_subset s hWI t x hx⟩
        · exact Or.inr ⟨t, ⟨ht, hf⟩, hx⟩
    · rintro (he | ⟨t, ⟨ht, _⟩, hx⟩)
      · exact Or.inl he
      · exact Or.inr ⟨t, ht, hx⟩
  · intro r es g he hg
    rw [Rule.typesItCouldAdd, he, hg]

theorem C2_prerequisites_match_spec_relation_witness :
    WellIndexed exBound ∧
    ((0 : Nat) ∈ Rule.prerequisites exOutRule exBound ↔
      (0 : Nat) ∈ prerequisitesSpec exOutRule exBound) ∧
    exTypedRule.typesItCouldAdd = .ok (["a", "b"].filter (fun t => !(t == "a"))) := by
  refine ⟨?_, ?_, ?_⟩
  · have h : Ruleset.construct exRules =
        .ok ⟨exRules, [0], [("best", 1)], [("a", [0])], [("a", [0])]⟩ := rfl
    exact C2_prerequisites_match_spec_relation.1 exRules _ exDoc h
  · exact C2_prerequisites_match_spec_relation.2.1 exBound (by decide) exOutRule 0
  · exact C2_prerequisites_match_spec_relation.2.2 exTypedRule ["a", "b"] "a" (by decide) rfl

/-! ### C4: cycles are detected before any rule executes -/

theorem execute_of_toposort_error (s : BoundRuleset) (root : Rule) (tag : Option Nat)
    (e : Err)
    (h : toposort
        ((s.prerequisitesTo (s.prereqFuel root) root tag []).map
          (fun p => (some p.1 : Option Nat)))
        (fun n =>
          match n with
          | some p => getDefault (s.prerequisitesTo (s.prereqFuel root) root tag []) p []
          | none => []) = .error e) :
    s.execute root tag = (.error .cycle, s) := by
  simp only [BoundRuleset.execute]
  rw [h]

/-- C4: a ruleset whose rules form a cyclic prerequisite graph constructs
without error; a `get` whose plan reaches the cycle fails with the `cycle`
error, returning the bound ruleset unchanged; and in general a failed
topological sort makes `_execute` raise `cycle` with the state untouched, so
no rule's results are computed and no fnode state is mutated. -/
theorem C4_cycle_detected_before_execution :
    exceptIsOk (Ruleset.construct cycleRules) = true ∧
    boundCycle.get (.byLhs (.ofType "a")) = (.error .cycle, boundCycle) ∧
    boundCycle.get (.byLhs (.ofType "b")) = (.error .cycle, boundCycle) ∧
    (∀ (s : BoundRuleset) (root : Rule) (tag : Option Nat) (e : Err),
      toposort
        ((s.prerequisitesTo (s.prereqFuel root) root tag []).map
          (fun p => (some p.1 : Option Nat)))
        (fun n =>
          match n with
          | some p => getDefault (s.prerequisitesTo (s.prereqFuel root) root tag []) p []
          | none => []) = .error e →
      s.execute root tag = (.error .cycle, s)) := by
  refine ⟨by decide, rfl, rfl, ?_⟩
  intro s root tag e h
  exact execute_of_toposort_error s root tag e h

theorem C4_cycle_detected_before_execution_witness :
    boundCycle.execute ⟨.ofType "a", .outward "outKey"⟩ none = (.error .cycle, boundCycle) :=
  C4_cycle_detected_before_execution.2.2.2 boundCycle ⟨.ofType "a", .outward "outKey"⟩
    none .cycle (by decide)

/-! ### C3: caches across repeated gets -/

/-- C3 counterexample: `BestClusterLhs.fnodes` has no result cache. On a
state holding one fnode of type `t`, a first call runs the clustering once
(count 1) and leaves the state unchanged; the claim then asserts that a
second call returns the already-computed result without re-running the
clustering computation (count 0), but the second call runs it again
(count 1). The third conjunct checks that the instrumented function is the
code's `fnodes` computation. -/
theorem C3_counterexample_bestcluster_recomputes :
    (bestClusterFnodesCounted "t" (bestClusterOptions none) exClusterState).2.2 = 1 ∧
    (bestClusterFnodesCounted "t" (bestClusterOptions none)
      (bestClusterFnodesCounted "t" (bestClusterOptions none) exClusterState).2.1).2.2 = 1 ∧
    Lhs.fnodes (.bestCluster "t" (bestClusterOptions none)) exClusterState =
      ((bestClusterFnodesCounted "t" (bestClusterOptions none) exClusterState).1,
       (bestClusterFnodesCounted "t" (bestClusterOptions none) exClusterState).2.1) := by
  exact ⟨by decide, by decide, rfl⟩

/-- C3 amended: repeated `get` calls on a bound ruleset observe previous
caches in that (1) already-executed inward rules are pruned from later plans
(every prerequisite-map key is an undone rule); (2) an already-computed
`Max(t)` result is returned from the per-type max cache without recomputation
(evaluation count 0, state unchanged), `typeMaxFnodesCounted` being the
code's `fnodes`; but (3) `BestCluster(t)` results are not cached: each call
leaves the state unchanged and re-runs the clustering computation whenever
the type has fnodes (evaluation count 1), returning equal results on
repeated calls. -/
theorem C3_caches_observed_amended :
    (∀ (s : BoundRuleset) (fuel : Nat) (r : Rule) (tag : Option Nat) (k : Nat),
      prereqHasKey (s.prerequisitesTo fuel r tag []) k = true → k ∉ s.doneRules) ∧
    (∀ (t : TypeName) (s : BoundRuleset) (cached : List ElemId),
      alistGet t s.maxCache = some cached →
      typeMaxFnodesCounted t s = (cached, s, 0) ∧ Lhs.fnodes (.typeMax t) s = (cached, s)) ∧
    (∀ (t : TypeName) (opts : ClusterOptions) (s : BoundRuleset),
      (bestClusterFnodesCounted t opts s).2.1 = s ∧
      (bestClusterFnodesCounted t opts s).2.2 =
        (if getDefault s.typeCache t [] = [] then 0 else 1) ∧
      bestClusterFnodesCounted t opts (bestClusterFnodesCounted t opts s).2.1 =
        bestClusterFnodesCounted t opts s) := by
  refine ⟨prerequisitesTo_keys_not_done, ?_, ?_⟩
  · intro t s cached h
    constructor
    · rw [typeMaxFnodesCounted, h]
    · simp only [Lhs.fnodes]
      rw [h]
  · intro t opts s
    refine ⟨?_, ?_, ?_⟩
    · rw [bestClusterFnodesCounted]
      split
      · rfl
      · rfl
    · rw [bestClusterFnodesCounted]
      split
      · rename_i hemp
        rw [if_pos (by simpa [List.isEmpty_iff] using hemp)]
      · rename_i hemp
        rw [if_neg (by simpa [List.isEmpty_iff] using hemp)]
    · have hst : (bestClusterFnodesCounted t opts s).2.1 = s := by
        rw [bestClusterFnodesCounted]
        split
        · rfl
        · rfl
      rw [hst]

theorem C3_caches_observed_amended_witness :
    (0 : Nat) ∉ exBound.doneRules ∧
    typeMaxFnodesCounted "t" exMaxState = ([5], exMaxState, 0) ∧
    (bestClusterFnodesCounted "t" (bestClusterOptions none) exClusterState).2.2 =
      (if getDefault exClusterState.typeCache "t" [] = [] then 0 else 1) := by
  refine ⟨?_, ?_, ?_⟩
  · exact C3_caches_observed_amended.1 exBound 5 exOutRule (some 1) 0 (by decide)
  · exact (C3_caches_observed_amended.2.1 "t" exMaxState [5] (by decide)).1
  · exact (C3_caches_observed_amended.2.2 "t" (bestClusterOptions none) exClusterState).2.1

/-! ### C6: what an inward rule could emit, and underspecifiedEmission -/

theorem typesItCouldEmit_error_eq (r : Rule) (e : Err)
    (h : r.typesItCouldEmit = .error e) : e = .underspecifiedEmission := by
  rw [Rule.typesItCouldEmit] at h
  cases hcct : r.rhs.possibleEmissions.couldChangeType <;>
    cases hg : r.lhs.guaranteedType <;> rw [hcct, hg] at h <;>
    by_cases hemp : r.rhs.possibleEmissions.possibleTypes.isEmpty <;>
    simp [hemp] at h <;> exact h.symm

theorem typesItCouldAdd_error_iff (r : Rule) (e : Err) :
    r.typesItCouldAdd = .error e ↔ r.typesItCouldEmit = .error e := by
  rw [Rule.typesItCouldAdd]
  cases h : r.typesItCouldEmit with
  | error e2 => simp
  | ok es => simp

theorem constructGo_error_iff (rules : List Rule) :
    ∀ (i : Nat) (acc : Ruleset) (e : Err),
      Ruleset.constructGo rules i acc = .error e ↔
        (e = .underspecifiedEmission ∧
         ∃ r ∈ rules, r.isInward = true ∧
           r.typesItCouldEmit = .error .underspecifiedEmission) := by
  induction rules with
  | nil =>
      intro i acc e
      rw [Ruleset.constructGo]
      simp
  | cons r rest ih =>
      intro i acc e
      rw [Ruleset.constructGo]
      cases hr : r.rhs with
      | outward k =>
          rw [ih]
          have hri : r.isInward = false := by rw [Rule.isInward, hr]
          simp [hri]
      | inward em f =>
          have hri : r.isInward = true := by rw [Rule.isInward, hr]
          cases he : r.typesItCouldEmit with
          | error e2 =>
              have he2 : e2 = .underspecifiedEmission := typesItCouldEmit_error_eq r e2 he
              subst he2
              simp only [Except.error.injEq]
              constructor
              · intro h
                exact ⟨h.symm, r, List.mem_cons_self r rest, hri, he⟩
              · rintro ⟨he3, _⟩
                exact he3.symm
          | ok es =>
              cases ha : r.typesItCouldAdd with
              | error e2 =>
                  exfalso
                  have := (typesItCouldAdd_error_iff r e2).mp ha
                  rw [he] at this
                  exact Except.noConfusion this
              | ok as =>
                  rw [ih]
                  constructor
                  · rintro ⟨he3, q, hq, hqi, hqe⟩
                    exact ⟨he3, q, List.mem_cons_of_mem r hq, hqi, hqe⟩
                  · rintro ⟨he3, q, hq, hqi, hqe⟩
                    rcases List.mem_cons.mp hq with hqr | hq2
                    · subst hqr
                      rw [he] at hqe
                      exact absurd hqe (by simp)
                    · exact ⟨he3, q, hq2, hqi, hqe⟩

/-- C6 counterexample: the claim says construction fails with
`underspecifiedEmission` exactly when the declared set is empty and no
LHS-guaranteed type is available; but for `rule(type(a), props(...))` — an
RHS that could change type, declares no types, on an LHS guaranteeing type
`a` — construction fails although a guaranteed type is available. -/
theorem C6_counterexample_emit_error_with_guaranteed_type :
    Ruleset.construct [exPropsRule] = .error .underspecifiedEmission ∧
    exPropsRule.lhs.guaranteedType = some "a" :=
  ⟨rfl, rfl⟩

/-- C6 amended: the emitted set is the LHS-guaranteed singleton when the RHS
cannot change type and a type is guaranteed, and otherwise the declared
possible-type set when that is nonempty; the per-rule computation fails with
`underspecifiedEmission` exactly when the declared set is empty and the
guaranteed-type fallback is unavailable (the RHS could change type or the LHS
guarantees no type); and ruleset construction fails (necessarily with that
error) exactly when some inward rule's computation does. -/
theorem C6_types_could_emit_amended :
    (∀ (r : Rule) (g : TypeName),
      r.rhs.possibleEmissions.couldChangeType = false → r.lhs.guaranteedType = some g →
      r.typesItCouldEmit = .ok [g]) ∧
    (∀ r : Rule,
      (r.rhs.possibleEmissions.couldChangeType = true ∨ r.lhs.guaranteedType = none) →
      r.rhs.possibleEmissions.possibleTypes ≠ [] →
      r.typesItCouldEmit = .ok r.rhs.possibleEmissions.possibleTypes) ∧
    (∀ r : Rule,
      r.typesItCouldEmit = .error .underspecifiedEmission ↔
        (r.rhs.possibleEmissions.possibleTypes = [] ∧
         (r.rhs.possibleEmissions.couldChangeType = true ∨ r.lhs.guaranteedType = none))) ∧
    (∀ (rules : List Rule) (e : Err),
      Ruleset.construct rules = .error e ↔
        (e = .underspecifiedEmission ∧
         ∃ r ∈ rules, r.isInward = true ∧
           r.typesItCouldEmit = .error .underspecifiedEmission)) := by
  refine ⟨?_, ?_, ?_, ?_⟩
  · intro r g h1 h2
    rw [Rule.typesItCouldEmit, h1, h2]
  · intro r h hne
    have hemp : r.rhs.possibleEmissions.possibleTypes.isEmpty = false := by
      simpa [List.isEmpty_iff] using hne
    rw [Rule.typesItCouldEmit]
    rcases h with hcct | hg
    · rw [hcct]
      cases hg : r.lhs.guaranteedType <;> simp [hemp]
    · rw [hg]
      cases hcct : r.rhs.possibleEmissions.couldChangeType <;> simp [hemp]
  · intro r
    rw [Rule.typesItCouldEmit]
    cases hcct : r.rhs.possibleEmissions.couldChangeType <;>
      cases hg : r.lhs.guaranteedType <;>
      by_cases hemp : r.rhs.possibleEmissions.possibleTypes.isEmpty <;>
      simp_all [List.isEmpty_iff]
  · intro rules e
    exact constructGo_error_iff rules 0 ⟨rules, [], [], [], []⟩ e

theorem C6_types_could_emit_amended_witness :
    (⟨.ofType "a", .inward ⟨false, ["b"]⟩ exFactFn⟩ : Rule).typesItCouldEmit = .ok ["a"] ∧
    exTypedRule.typesItCouldEmit = .ok ["a", "b"] ∧
    exPropsRule.typesItCouldEmit = .error .underspecifiedEmission ∧
    Ruleset.construct [exPropsRule] = .error .underspecifiedEmission := by
  refine ⟨?_, ?_, ?_, ?_⟩
  · exact C6_types_could_emit_amended.1 _ "a" rfl rfl
  · exact C6_types_could_emit_amended.2.1 exTypedRule (Or.inl rfl) (by decide)
  · exact (C6_types_could_emit_amended.2.2.1 exPropsRule).mpr ⟨rfl, Or.inl rfl⟩
  · refine ((C6_types_could_emit_amended.2.2.2 [exPropsRule] .underspecifiedEmission).mpr
      ⟨rfl, exPropsRule, List.mem_cons_self _ _, rfl, ?_⟩)
    exact (C6_types_could_emit_amended.2.2.1 exPropsRule).mpr ⟨rfl, Or.inl rfl⟩

/-! ### C7: the dom-rule type check happens at execution time -/

/-- C7 counterexample: the claim says a rule pairing a `dom()` LHS with an
RHS that emits no type fails with `domRuleMustAssignType` at construction
time; but constructing a ruleset from such a rule (whose RHS statically
declares a type it may emit, yet emits facts with no type) succeeds, and the
error is raised only when the rule's results are computed. -/
theorem C7_counterexample_construction_succeeds :
    Ruleset.construct [exDomTypedRule] =
      .ok ⟨[exDomTypedRule], [0], [], [("a", [0])], [("a", [0])]⟩ ∧
    (Rule.results exDomTypedRule (some 0) exDomBound).1 = .error .domRuleMustAssignType := by
  exact ⟨rfl, by decide⟩

/-- C7 amended: a `dom(selector)` rule whose RHS emits a fact with no type
fails with `domRuleMustAssignType` at execution time, when `results()`
applies the fact (the state is returned unchanged); construction succeeds
whenever the RHS declares a nonempty possible-type set. -/
theorem C7_dom_rule_type_error_at_execution :
    (∀ (sel : String) (factFn : Fnode → Option TypeName → Fact) (s : BoundRuleset)
       (leftId : ElemId),
      (factFn (s.fnodeOf leftId) none).type = none →
      updateFnode (.dom sel) factFn s leftId = (.error .domRuleMustAssignType, s)) ∧
    (∀ (sel : String) (em : Emissions) (factFn : Fnode → Option TypeName → Fact),
      em.possibleTypes ≠ [] →
      exceptIsOk (Ruleset.construct [⟨.dom sel, .inward em factFn⟩]) = true) := by
  constructor
  · intro sel factFn s leftId h
    rw [updateFnode]
    have : Lhs.checkFact (.dom sel) (factFn (s.fnodeOf leftId) ((Lhs.dom sel).guaranteedType)) =
        .error .domRuleMustAssignType := by
      rw [Lhs.checkFact]
      rw [show (Lhs.dom sel).guaranteedType = none from rfl] at *
      rw [if_pos (by rw [h]; rfl)]
    rw [show (Lhs.dom sel).guaranteedType = none from rfl] at this ⊢
    rw [this]
  · intro sel em factFn hne
    have hemp : em.possibleTypes.isEmpty = false := by simpa [List.isEmpty_iff] using hne
    have he : (⟨.dom sel, .inward em factFn⟩ : Rule).typesItCouldEmit = .ok em.possibleTypes := by
      rw [Rule.typesItCouldEmit]
      cases hcct : em.couldChangeType <;>
        simp [Rhs.possibleEmissions, hcct, hemp, Lhs.guaranteedType]
    have ha : (⟨.dom sel, .inward em factFn⟩ : Rule).typesItCouldAdd = .ok em.possibleTypes := by
      rw [Rule.typesItCouldAdd, he]
      rfl
    simp only [Ruleset.construct, Ruleset.constructGo, he, ha, exceptIsOk]

theorem C7_dom_rule_type_error_at_execution_witness :
    updateFnode (.dom "p") exNoTypeFactFn exBound 1 =
      (.error .domRuleMustAssignType, exBound) ∧
    exceptIsOk (Ruleset.construct [⟨.dom "p", .inward ⟨true, ["a"]⟩ exNoTypeFactFn⟩]) = true := by
  constructor
  · exact C7_dom_rule_type_error_at_execution.1 "p" exNoTypeFactFn exBound 1 rfl
  · exact C7_dom_rule_type_error_at_execution.2 "p" ⟨true, ["a"]⟩ exNoTypeFactFn (by decide)

/-! ### C9: a later outward rule silently replaces an earlier one with the
same key -/

theorem constructGo_allOutward_ok (rules : List Rule) :
    (∀ r ∈ rules, r.isInward = false) →
    ∀ (i : Nat) (acc : Ruleset), exceptIsOk (Ruleset.constructGo rules i acc) = true := by
  induction rules with
  | nil =>
      intro h i acc
      rw [Ruleset.constructGo]
      rfl
  | cons r rest ih =>
      intro h i acc
      rw [Ruleset.constructGo]
      cases hr : r.rhs with
      | inward em f =>
          exfalso
          have hh := h r (List.mem_cons_self r rest)
          rw [Rule.isInward, hr] at hh
          exact Bool.noConfusion hh
      | outward k =>
          exact ih (fun q hq => h q (List.mem_cons_of_mem r hq)) (i + 1) _

theorem constructGo_outRules (rules : List Rule) :
    ∀ (i : Nat) (acc rs : Ruleset) (k : String),
      Ruleset.constructGo rules i acc = .ok rs →
      alistGet k rs.outRules =
        (match lastOutIdx rules k with
         | some n => some (i + n)
         | none => alistGet k acc.outRules) := by
  induction rules with
  | nil =>
      intro i acc rs k h
      rw [Ruleset.constructGo] at h
      injection h with h
      subst h
      rfl
  | cons r rest ih =>
      intro i acc rs k h
      rw [Ruleset.constructGo] at h
      cases hr : r.rhs with
      | inward em f =>
          rw [hr] at h
          cases he : r.typesItCouldEmit with
          | error e =>
              rw [he] at h
              simp at h
          | ok es =>
              rw [he] at h
              cases ha : r.typesItCouldAdd with
              | error e =>
                  rw [ha] at h
                  simp at h
              | ok as =>
                  rw [ha] at h
                  rw [ih (i + 1) _ rs k h]
                  rw [lastOutIdx]
                  cases hl : lastOutIdx rest k with
                  | some n =>
                      have harith : i + 1 + n = i + (n + 1) := by omega
                      simp [harith]
                  | none => simp [hr]
      | outward k2 =>
          rw [hr] at h
          rw [ih (i + 1) _ rs k h]
          rw [lastOutIdx]
          cases hl : lastOutIdx rest k with
          | some n =>
              have harith : i + 1 + n = i + (n + 1) := by omega
              simp [harith]
          | none =>
              simp only [hr]
              show alistGet k (alistSet k2 i acc.outRules) = _
              rw [alistGet_alistSet]
              by_cases hk : k2 = k
              · rw [if_pos hk, if_pos hk.symm]
                simp
              · rw [if_neg hk, if_neg (fun hh => hk hh.symm)]

/-- C9: passing two outward rules with the same key to `ruleset()` raises no
error — a ruleset of outward rules always constructs — and `Map.set` makes
the later rule silently replace the earlier one in the out-rule index, whose
lookup always yields the index of the last outward rule with the key; `get`
on that key therefore executes only that last rule. -/
theorem C9_duplicate_out_keys_last_wins :
    (∀ rules : List Rule, (∀ r ∈ rules, r.isInward = false) →
       exceptIsOk (Ruleset.construct rules) = true) ∧
    (∀ (rules : List Rule) (rs : Ruleset) (k : String),
       Ruleset.construct rules = .ok rs → alistGet k rs.outRules = lastOutIdx rules k) ∧
    (∀ (s : BoundRuleset) (k : String) (rid : Nat) (r : Rule),
       alistGet k s.outRules = some rid → s.rules[rid]? = some r →
       s.get (.key k) = s.execute r (some rid)) := by
  refine ⟨?_, ?_, ?_⟩
  · intro rules h
    exact constructGo_allOutward_ok rules h 0 _
  · intro rules rs k h
    rw [constructGo_outRules rules 0 _ rs k h]
    cases hl : lastOutIdx rules k with
    | some n => simp
    | none => rfl
  · intro s k rid r h1 h2
    simp only [BoundRuleset.get, h1, h2]

theorem C9_duplicate_out_keys_last_wins_witness :
    exceptIsOk (Ruleset.construct exDupRules) = true ∧
    alistGet "dup" ([("dup", 1)] : List (String × Nat)) = lastOutIdx exDupRules "dup" ∧
    exDupBound.get (.key "dup") =
      exDupBound.execute ⟨.typeMax "a", .outward "dup"⟩ (some 1) := by
  refine ⟨?_, ?_, ?_⟩
  · exact C9_duplicate_out_keys_last_wins.1 exDupRules (by decide)
  · exact C9_duplicate_out_keys_last_wins.2.1 exDupRules
      ⟨exDupRules, [], [("dup", 1)], [], []⟩ "dup" rfl
  · exact C9_duplicate_out_keys_last_wins.2.2 exDupBound "dup" 1
      ⟨.typeMax "a", .outward "dup"⟩ rfl rfl

/-! ### C10: the bestCluster default cut-off and top-scoring-cluster choice -/

theorem maxBy_go {α : Type} (key : α → ℚ) :
    ∀ (items : List α) (b : α),
      ∃ m, items.foldl (maxByStep key) (some b) = some m ∧
        (m = b ∨ m ∈ items) ∧ key b ≤ key m ∧ ∀ y ∈ items, key y ≤ key m := by
  intro items
  induction items with
  | nil => exact fun b => ⟨b, rfl, Or.inl rfl, le_refl _, by simp⟩
  | cons x rest ih =>
      intro b
      show ∃ m, rest.foldl (maxByStep key) (maxByStep key (some b) x) = some m ∧ _
      by_cases h : key b < key x
      · rw [show maxByStep key (some b) x = some x from by simp [maxByStep, h]]
        obtain ⟨m, hm, hmem, hkey, hall⟩ := ih x
        refine ⟨m, hm, ?_, le_trans (le_of_lt h) hkey, ?_⟩
        · rcases hmem with rfl | hmem
          · exact Or.inr (List.mem_cons_self m rest)
          · exact Or.inr (List.mem_cons_of_mem x hmem)
        · intro y hy
          rcases List.mem_cons.mp hy with rfl | hy2
          · exact hkey
          · exact hall y hy2
      · rw [show maxByStep key (some b) x = some b from by simp [maxByStep, h]]
        obtain ⟨m, hm, hmem, hkey, hall⟩ := ih b
        refine ⟨m, hm, ?_, hkey, ?_⟩
        · rcases hmem with rfl | hmem
          · exact Or.inl rfl
          · exact Or.inr (List.mem_cons_of_mem x hmem)
        · intro y hy
          rcases List.mem_cons.mp hy with rfl | hy2
          · exact le_trans (le_of_not_lt h) hkey
          · exact hall y hy2

theorem maxBy_spec {α : Type} (key : α → ℚ) (items : List α) (hne : items ≠ []) :
    ∃ m, maxBy key items = some m ∧ m ∈ items ∧ ∀ y ∈ items, key y ≤ key m := by
  cases items with
  | nil => exact absurd rfl hne
  | cons x rest =>
      obtain ⟨m, hm, hmem, hkey, hall⟩ := maxBy_go key rest x
      refine ⟨m, hm, ?_, ?_⟩
      · rcases hmem with rfl | hmem
        · exact List.mem_cons_self m rest
        · exact List.mem_cons_of_mem x hmem
      · intro y hy
        rcases List.mem_cons.mp hy with rfl | hy2
        · exact hkey
        · exact hall y hy2

theorem clustersGo_ne_nil {α : Type} (d : α → α → ℚ) (c : ℚ) :
    ∀ (fuel : Nat) (cs : List (List α)), cs ≠ [] → clustersGo d c fuel cs ≠ [] := by
  intro fuel
  induction fuel with
  | zero => exact fun cs h => h
  | succ f ih =>
      intro cs h
      rw [clustersGo]
      cases hcp : closestPair d cs with
      | none => exact h
      | some q =>
          rcases q with ⟨i, j, dist⟩
          by_cases hlt : c < dist
          · simp only [if_pos hlt]
            exact h
          · simp only [if_neg hlt]
            exact ih _ (List.cons_ne_nil _ _)

theorem clusters_ne_nil {α : Type} (items : List α) (c : ℚ) (d : α → α → ℚ)
    (h : items ≠ []) : clusters items c d ≠ [] := by
  refine clustersGo_ne_nil d c items.length _ ?_
  cases items with
  | nil => exact absurd rfl h
  | cons x rest => exact List.cons_ne_nil _ _

/-- C10: `bestCluster` invoked with no options uses the default
`splittingDistance` of 3; its matches are computed, on every bound ruleset
where the type has fnodes, by clustering the type's fnodes with cut-off 3 and
returning a cluster whose members' scores for the type sum at least as high
as any other cluster's (the state is not changed). -/
theorem C10_bestcluster_default_splitting_distance :
    bestClusterOptions none = ⟨3⟩ ∧
    (∀ (t : TypeName) (s : BoundRuleset),
      getDefault s.typeCache t [] ≠ [] →
      ∃ c, Lhs.fnodes (bestClusterLhs t none) s = (c, s) ∧
        c ∈ clusters (getDefault s.typeCache t []) 3
              (fun a b => s.doc.eltDistance a b (bestClusterOptions none)) ∧
        ∀ c2 ∈ clusters (getDefault s.typeCache t []) 3
              (fun a b => s.doc.eltDistance a b (bestClusterOptions none)),
          sumQ (c2.map (fun e => (s.fnodeOf e).scoreFor t)) ≤
            sumQ (c.map (fun e => (s.fnodeOf e).scoreFor t))) := by
  refine ⟨rfl, ?_⟩
  intro t s hne
  have hemp : (getDefault s.typeCache t []).isEmpty = false := by
    simpa [List.isEmpty_iff] using hne
  have hclne : clusters (getDefault s.typeCache t []) 3
      (fun a b => s.doc.eltDistance a b (bestClusterOptions none)) ≠ [] :=
    clusters_ne_nil _ 3 _ hne
  have hscne :
      (clusters (getDefault s.typeCache t [])
            ((bestClusterOptions none).splittingDistance)
            (fun a b => s.doc.eltDistance a b (bestClusterOptions none))).map
        (fun c => (c, sumQ (c.map (fun e => (s.fnodeOf e).scoreFor t)))) ≠ [] := by
    intro hcon
    exact hclne (List.map_eq_nil_iff.mp hcon)
  obtain ⟨m, hm, hmem, hall⟩ := maxBy_spec (fun p => p.2) _ hscne
  obtain ⟨cl, hclmem, hclm⟩ := List.mem_map.mp hmem
  refine ⟨m.1, ?_, ?_, ?_⟩
  · show Lhs.fnodes (.bestCluster t (bestClusterOptions none)) s = (m.1, s)
    simp only [Lhs.fnodes, hemp, Bool.false_eq_true, if_false, hm]
    rfl
  · rw [← hclm]
    exact hclmem
  · intro c2 hc2
    have hc2s : (c2, sumQ (c2.map (fun e => (s.fnodeOf e).scoreFor t))) ∈
        (clusters (getDefault s.typeCache t [])
            ((bestClusterOptions none).splittingDistance)
            (fun a b => s.doc.eltDistance a b (bestClusterOptions none))).map
          (fun c => (c, sumQ (c.map (fun e => (s.fnodeOf e).scoreFor t)))) :=
      List.mem_map.mpr ⟨c2, hc2, rfl⟩
    have h2 := hall _ hc2s
    rw [← hclm] at *
    exact h2

theorem C10_bestcluster_default_splitting_distance_witness :
    ∃ c, Lhs.fnodes (bestClusterLhs "t" none) exClusterState = (c, exClusterState) ∧
      c ∈ clusters (getDefault exClusterState.typeCache "t" []) 3
            (fun a b => exClusterState.doc.eltDistance a b (bestClusterOptions none)) ∧
      ∀ c2 ∈ clusters (getDefault exClusterState.typeCache "t" []) 3
            (fun a b => exClusterState.doc.eltDistance a b (bestClusterOptions none)),
        sumQ (c2.map (fun e => (exClusterState.fnodeOf e).scoreFor "t")) ≤
          sumQ (c.map (fun e => (exClusterState.fnodeOf e).scoreFor "t")) :=
  C10_bestcluster_default_splitting_distance.2 "t" exClusterState (by decide)

/-! ### C5: score conservation -/

theorem alistGet_append_single {κ ν : Type} [DecidableEq κ] (k e : κ) (v : ν) :
    ∀ m : List (κ × ν),
      alistGet k (m ++ [(e, v)]) =
        match alistGet k m with
        | some w => some w
        | none => if e = k then some v else none := by
  intro m
  induction m with
  | nil =>
      simp only [List.nil_append, alistGet]
  | cons p rest ih =>
      by_cases hp : p.1 = k
      · simp [alistGet, hp]
      · simp only [List.cons_append, alistGet, if_neg hp]
        exact ih

theorem fnodeOf_fnodeForElement (s : BoundRuleset) (e e2 : ElemId) :
    (s.fnodeForElement e).fnodeOf e2 = s.fnodeOf e2 := by
  simp only [BoundRuleset.fnodeForElement, BoundRuleset.fnodeOf]
  cases hm : alistGet e s.elementCache with
  | some f => rfl
  | none =>
      rw [alistGet_append_single]
      cases hg2 : alistGet e2 s.elementCache with
      | some w => rfl
      | none =>
          by_cases he : e = e2
          · subst he
            simp
          · simp [he]

theorem fnodeOf_setFnode (s : BoundRuleset) (f : Fnode) (e : ElemId) :
    (s.setFnode f).fnodeOf e = if e = f.element then f else s.fnodeOf e := by
  simp only [BoundRuleset.setFnode, BoundRuleset.fnodeOf]
  rw [alistGet_alistSet]
  by_cases h : e = f.element
  · simp [h]
  · simp [h]

theorem mem_alistSet {κ ν : Type} [DecidableEq κ] (k : κ) (v : ν) (p : κ × ν) :
    ∀ m : List (κ × ν), p ∈ alistSet k v m → p = (k, v) ∨ p ∈ m := by
  intro m
  induction m with
  | nil =>
      intro hp
      simp only [alistSet] at hp
      left
      simpa using hp
  | cons q rest ih =>
      intro hp
      simp only [alistSet] at hp
      by_cases hq : q.1 = k
      · rw [if_pos hq] at hp
        rcases List.mem_cons.mp hp with h | h
        · left; exact h
        · right; exact List.mem_cons_of_mem _ h
      · rw [if_neg hq] at hp
        rcases List.mem_cons.mp hp with h | h
        · right; exact h ▸ List.mem_cons_self _ _
        · rcases ih h with h2 | h2
          · left; exact h2
          · right; exact List.mem_cons_of_mem _ h2

theorem elementKeyed_setFnode {s : BoundRuleset} (h : ElementKeyed s) (f : Fnode) :
    ElementKeyed (s.setFnode f) := by
  intro p hp
  rcases mem_alistSet f.element f p s.elementCache hp with h2 | h2
  · subst h2; rfl
  · exact h p h2

theorem elementKeyed_fnodeForElement {s : BoundRuleset} (h : ElementKeyed s)
    (e : ElemId) : ElementKeyed (s.fnodeForElement e) := by
  intro p hp
  simp only [BoundRuleset.fnodeForElement] at hp
  cases hm : alistGet e s.elementCache with
  | some f =>
      rw [hm] at hp
      exact h p hp
  | none =>
      rw [hm] at hp
      rcases List.mem_append.mp hp with h2 | h2
      · exact h p h2
      · have hpe : p = (e, Fnode.mk e []) := by simpa using h2
        subst hpe
        rfl

theorem fnodeOf_element {s : BoundRuleset} (hEK : ElementKeyed s) (e : ElemId) :
    (s.fnodeOf e).element = e := by
  unfold BoundRuleset.fnodeOf
  cases hm : alistGet e s.elementCache with
  | none => rfl
  | some f =>
      obtain ⟨p, hp, hk, hv⟩ := alistGet_eq_some_mem e f s.elementCache hm
      simp only [Option.getD_some]
      rw [← hv, hEK p hp, hk]

theorem multiplyScoreFor_element (f : Fnode) (t : TypeName) (x : ℚ) :
    (f.multiplyScoreFor t x).element = f.element := rfl

theorem multiplyScoreFor_scoreSoFarFor (f : Fnode) (t : TypeName) (x : ℚ) :
    (f.multiplyScoreFor t x).scoreSoFarFor t = f.scoreSoFarFor t * x := by
  simp only [Fnode.multiplyScoreFor, Fnode.scoreSoFarFor, Fnode.lookupType]
  rw [alistGet_alistSet]
  simp only [if_pos rfl, Option.map_some, Option.getD_some, qmul_eq]
  cases h : alistGet t f.typesAndData with
  | some r => simp
  | none => simp

theorem setNoteFor_ok (f : Fnode) (t : TypeName) (note : Option Note) (g : Fnode)
    (h : f.setNoteFor t note = .ok g) :
    g.element = f.element ∧ ∀ t2, g.scoreSoFarFor t2 = f.scoreSoFarFor t2 := by
  cases hl : f.lookupType t with
  | some r =>
      cases hrn : r.note with
      | some n1 =>
          cases note with
          | some n2 => simp [Fnode.setNoteFor, hl, hrn] at h
          | none =>
              simp only [Fnode.setNoteFor, hl, hrn, Except.ok.injEq] at h
              subst h
              exact ⟨rfl, fun _ => rfl⟩
      | none =>
          cases note with
          | some n2 =>
              simp only [Fnode.setNoteFor, hl, hrn, Except.ok.injEq] at h
              subst h
              refine ⟨rfl, fun t2 => ?_⟩
              simp only [Fnode.scoreSoFarFor, Fnode.lookupType]
              rw [alistGet_alistSet]
              by_cases ht : t2 = t
              · subst ht
                unfold Fnode.lookupType at hl
                rw [hl]
                simp
              · simp [ht]
          | none =>
              simp only [Fnode.setNoteFor, hl, hrn, Except.ok.injEq] at h
              subst h
              exact ⟨rfl, fun _ => rfl⟩
  | none =>
      simp only [Fnode.setNoteFor, hl, Except.ok.injEq] at h
      subst h
      refine ⟨rfl, fun t2 => ?_⟩
      simp only [Fnode.scoreSoFarFor, Fnode.lookupType]
      rw [alistGet_alistSet]
      by_cases ht : t2 = t
      · subst ht
        unfold Fnode.lookupType at hl
        rw [hl]
        simp
      · simp [ht]

theorem checkFact_ok_of_guaranteed (l : Lhs) (lt : TypeName)
    (hg : l.guaranteedType = some lt) (fact : Fact) : l.checkFact fact = .ok () := by
  cases l <;> simp_all [Lhs.checkFact, Lhs.guaranteedType]

theorem conserve_chain_score (s : BoundRuleset) (hEK : ElementKeyed s)
    (leftId rid : ElemId) (lt rt : TypeName) :
    (((s.fnodeForElement rid).setFnode
        (((s.fnodeForElement rid).fnodeOf rid).conserveScoreFrom
          ((s.fnodeForElement rid).fnodeOf leftId) lt rt)).fnodeOf rid).scoreSoFarFor rt =
      (s.fnodeOf rid).scoreSoFarFor rt * (s.fnodeOf leftId).scoreFor lt := by
  have hEK1 : ElementKeyed (s.fnodeForElement rid) := elementKeyed_fnodeForElement hEK rid
  have hel : (((s.fnodeForElement rid).fnodeOf rid).conserveScoreFrom
      ((s.fnodeForElement rid).fnodeOf leftId) lt rt).element = rid := by
    unfold Fnode.conserveScoreFrom
    rw [multiplyScoreFor_element]
    exact fnodeOf_element hEK1 rid
  rw [fnodeOf_setFnode, if_pos hel.symm]
  unfold Fnode.conserveScoreFrom
  rw [multiplyScoreFor_scoreSoFarFor, fnodeOf_fnodeForElement, fnodeOf_fnodeForElement]

theorem setFnode_multiply_score (S : BoundRuleset) (hEK : ElementKeyed S)
    (rid : ElemId) (rt : TypeName) (x : ℚ) :
    ((S.setFnode ((S.fnodeOf rid).multiplyScoreFor rt x)).fnodeOf rid).scoreSoFarFor rt =
      (S.fnodeOf rid).scoreSoFarFor rt * x := by
  have hel : ((S.fnodeOf rid).multiplyScoreFor rt x).element = rid := by
    rw [multiplyScoreFor_element]
    exact fnodeOf_element hEK rid
  rw [fnodeOf_setFnode, if_pos hel.symm, multiplyScoreFor_scoreSoFarFor]

theorem setFnode_note_score (S : BoundRuleset) (hEK : ElementKeyed S) (rid : ElemId)
    (rt : TypeName) (note : Option Note) (f4 : Fnode)
    (h : (S.fnodeOf rid).setNoteFor rt note = .ok f4) (t2 : TypeName) :
    ((S.setFnode f4).fnodeOf rid).scoreSoFarFor t2 =
      (S.fnodeOf rid).scoreSoFarFor t2 := by
  obtain ⟨hel, hsc⟩ := setNoteFor_ok _ _ _ _ h
  rw [fnodeOf_setFnode, if_pos (hel.trans (fnodeOf_element hEK rid)).symm]
  exact hsc t2

/-- C5: when an inward rule's RHS emits a fact with `conserveScore = true`:
if the LHS guarantees a type `lt`, the merge multiplies the source fnode's
score for `lt` into the target fnode's effective type (the fact's type, or
`lt` when the fact has none) before the fact's own score factor; if the LHS
guarantees no type (and the fact passes `checkFact`), the merge fails with
`conserveScoreWithoutType`, leaving only the target's fnode materialized. -/
theorem C5_conserve_score_semantics :
    (∀ (lhs : Lhs) (factFn : Fnode → Option TypeName → Fact) (s : BoundRuleset)
        (leftId : ElemId) (lt : TypeName) (fact : Fact) (rid : ElemId)
        (s2 : BoundRuleset),
        ElementKeyed s →
        lhs.guaranteedType = some lt →
        factFn (s.fnodeOf leftId) (some lt) = fact →
        fact.conserveScore = true →
        updateFnode lhs factFn s leftId = (.ok rid, s2) →
        rid = fact.element.getD leftId ∧
          (s2.fnodeOf rid).scoreSoFarFor (fact.type.getD lt) =
            (s.fnodeOf rid).scoreSoFarFor (fact.type.getD lt) *
              (s.fnodeOf leftId).scoreFor lt * fact.score.getD 1) ∧
    (∀ (lhs : Lhs) (factFn : Fnode → Option TypeName → Fact) (s : BoundRuleset)
        (leftId : ElemId),
        lhs.guaranteedType = none →
        (factFn (s.fnodeOf leftId) none).conserveScore = true →
        lhs.checkFact (factFn (s.fnodeOf leftId) none) = .ok () →
        updateFnode lhs factFn s leftId =
          (.error .conserveScoreWithoutType,
           s.fnodeForElement ((factFn (s.fnodeOf leftId) none).element.getD leftId))) := by
  constructor
  · intro lhs factFn s leftId lt fact rid s2 hEK hg hfa hcs hok
    simp only [updateFnode, hg, hfa, checkFact_ok_of_guaranteed lhs lt hg, hcs,
      if_true] at hok
    cases hft : fact.type with
    | none =>
        simp only [hft, Option.getD_none, Option.isSome_none, Bool.false_or] at hok ⊢
        cases hsc2 : fact.score with
        | none =>
            simp only [hsc2, Option.getD_none] at hok ⊢
            cases hfn : fact.note with
            | none =>
                simp only [hfn, Option.isSome_none, Bool.false_eq_true, if_false,
                  Prod.mk.injEq, Except.ok.injEq] at hok
                obtain ⟨h1, h2⟩ := hok
                subst h1
                subst h2
                refine ⟨rfl, ?_⟩
                rw [conserve_chain_score s hEK leftId _ lt lt, mul_one]
            | some n =>
                simp only [hfn, Option.isSome_some, if_true] at hok
                cases hsn : Fnode.setNoteFor
                    (((s.fnodeForElement (fact.element.getD leftId)).setFnode
                        (((s.fnodeForElement (fact.element.getD leftId)).fnodeOf
                            (fact.element.getD leftId)).conserveScoreFrom
                          ((s.fnodeForElement (fact.element.getD leftId)).fnodeOf leftId)
                          lt lt)).fnodeOf (fact.element.getD leftId)) lt (some n) with
                | error e =>
                    rw [hsn, Prod.mk.injEq] at hok
                    exact absurd hok.1 (fun hh => Except.noConfusion hh)
                | ok f4 =>
                    rw [hsn, Prod.mk.injEq] at hok
                    obtain ⟨h1, h2⟩ := hok
                    injection h1 with h1
                    subst h1
                    subst h2
                    refine ⟨rfl, ?_⟩
                    rw [setFnode_note_score _ (elementKeyed_setFnode (elementKeyed_fnodeForElement hEK _) _) _ lt (some n) f4 hsn,
                      conserve_chain_score s hEK leftId _ lt lt, mul_one]
        | some x =>
            simp only [hsc2, Option.getD_some] at hok ⊢
            cases hfn : fact.note with
            | none =>
                simp only [hfn, Option.isSome_none, Bool.false_eq_true, if_false,
                  Prod.mk.injEq, Except.ok.injEq] at hok
                obtain ⟨h1, h2⟩ := hok
                subst h1
                subst h2
                refine ⟨rfl, ?_⟩
                rw [setFnode_multiply_score _ (elementKeyed_setFnode (elementKeyed_fnodeForElement hEK _) _) _ lt x,
                  conserve_chain_score s hEK leftId _ lt lt]
            | some n =>
                simp only [hfn, Option.isSome_some, if_true] at hok
                cases hsn : Fnode.setNoteFor
                    ((((s.fnodeForElement (fact.element.getD leftId)).setFnode
                          (((s.fnodeForElement (fact.element.getD leftId)).fnodeOf
                              (fact.element.getD leftId)).conserveScoreFrom
                            ((s.fnodeForElement (fact.element.getD leftId)).fnodeOf
                              leftId) lt lt)).setFnode
                        ((((s.fnodeForElement (fact.element.getD leftId)).setFnode
                              (((s.fnodeForElement (fact.element.getD leftId)).fnodeOf
                                  (fact.element.getD leftId)).conserveScoreFrom
                                ((s.fnodeForElement
                                    (fact.element.getD leftId)).fnodeOf leftId) lt
                                lt)).fnodeOf
                            (fact.element.getD leftId)).multiplyScoreFor lt
                          x)).fnodeOf (fact.element.getD leftId)) lt (some n) with
                | error e =>
                    rw [hsn, Prod.mk.injEq] at hok
                    exact absurd hok.1 (fun hh => Except.noConfusion hh)
                | ok f4 =>
                    rw [hsn, Prod.mk.injEq] at hok
                    obtain ⟨h1, h2⟩ := hok
                    injection h1 with h1
                    subst h1
                    subst h2
                    refine ⟨rfl, ?_⟩
                    rw [setFnode_note_score _ (elementKeyed_setFnode (elementKeyed_setFnode (elementKeyed_fnodeForElement hEK _) _) _) _ lt
                        (some n) f4 hsn,
                      setFnode_multiply_score _ (elementKeyed_setFnode (elementKeyed_fnodeForElement hEK _) _) _ lt x,
                      conserve_chain_score s hEK leftId _ lt lt]
    | some t =>
        simp only [hft, Option.getD_some, Option.isSome_some, Bool.true_or,
          if_true] at hok ⊢
        cases hsc2 : fact.score with
        | none =>
            simp only [hsc2, Option.getD_none] at hok ⊢
            cases hsn : Fnode.setNoteFor
                (((s.fnodeForElement (fact.element.getD leftId)).setFnode
                    (((s.fnodeForElement (fact.element.getD leftId)).fnodeOf
                        (fact.element.getD leftId)).conserveScoreFrom
                      ((s.fnodeForElement (fact.element.getD leftId)).fnodeOf leftId)
                      lt t)).fnodeOf (fact.element.getD leftId)) t fact.note with
            | error e =>
                rw [hsn, Prod.mk.injEq] at hok
                exact absurd hok.1 (fun hh => Except.noConfusion hh)
            | ok f4 =>
                rw [hsn, Prod.mk.injEq] at hok
                obtain ⟨h1, h2⟩ := hok
                injection h1 with h1
                subst h1
                subst h2
                refine ⟨rfl, ?_⟩
                rw [setFnode_note_score _ (elementKeyed_setFnode (elementKeyed_fnodeForElement hEK _) _) _ t fact.note f4 hsn,
                  conserve_chain_score s hEK leftId _ lt t, mul_one]
        | some x =>
            simp only [hsc2, Option.getD_some] at hok ⊢
            cases hsn : Fnode.setNoteFor
                ((((s.fnodeForElement (fact.element.getD leftId)).setFnode
                      (((s.fnodeForElement (fact.element.getD leftId)).fnodeOf
                          (fact.element.getD leftId)).conserveScoreFrom
                        ((s.fnodeForElement (fact.element.getD leftId)).fnodeOf
                          leftId) lt t)).setFnode
                    ((((s.fnodeForElement (fact.element.getD leftId)).setFnode
                          (((s.fnodeForElement (fact.element.getD leftId)).fnodeOf
                              (fact.element.getD leftId)).conserveScoreFrom
                            ((s.fnodeForElement
                                (fact.element.getD leftId)).fnodeOf leftId) lt
                            t)).fnodeOf
                        (fact.element.getD leftId)).multiplyScoreFor t
                      x)).fnodeOf (fact.element.getD leftId)) t fact.note with
            | error e =>
                rw [hsn, Prod.mk.injEq] at hok
                exact absurd hok.1 (fun hh => Except.noConfusion hh)
            | ok f4 =>
                rw [hsn, Prod.mk.injEq] at hok
                obtain ⟨h1, h2⟩ := hok
                injection h1 with h1
                subst h1
                subst h2
                refine ⟨rfl, ?_⟩
                rw [setFnode_note_score _ (elementKeyed_setFnode (elementKeyed_setFnode (elementKeyed_fnodeForElement hEK _) _) _) _ t
                    fact.note f4 hsn,
                  setFnode_multiply_score _ (elementKeyed_setFnode (elementKeyed_fnodeForElement hEK _) _) _ t x,
                  conserve_chain_score s hEK leftId _ lt t]
  · intro lhs factFn s leftId hg hcs hchk
    simp only [updateFnode, hg, hchk, hcs, if_true]

/-- Witness for C5 at concrete inputs: conserving from `a` (score 3) into `b`
with score factor 2 yields a `b` score of 6 on element 7, and a `dom` LHS
with a conserving fact fails with `conserveScoreWithoutType`. -/
theorem C5_conserve_score_semantics_witness :
    ((7 : ElemId) = ((⟨none, some "b", some 2, none, true⟩ : Fact).element.getD 7) ∧
      (exConserveDone.fnodeOf 7).scoreSoFarFor
          ((⟨none, some "b", some 2, none, true⟩ : Fact).type.getD "a") =
        (exConserveState.fnodeOf 7).scoreSoFarFor
            ((⟨none, some "b", some 2, none, true⟩ : Fact).type.getD "a") *
          (exConserveState.fnodeOf 7).scoreFor "a" *
          ((⟨none, some "b", some 2, none, true⟩ : Fact).score.getD 1)) ∧
    updateFnode (.dom "p") exDomConserveFactFn exConserveState 7 =
      (.error .conserveScoreWithoutType,
       exConserveState.fnodeForElement
         ((exDomConserveFactFn (exConserveState.fnodeOf 7) none).element.getD 7)) :=
  ⟨C5_conserve_score_semantics.1 (.ofType "a") exConserveFactFn exConserveState 7 "a"
      ⟨none, some "b", some 2, none, true⟩ 7 exConserveDone (by decide) rfl rfl rfl
      (by rfl),
   C5_conserve_score_semantics.2 (.dom "p") exDomConserveFactFn exConserveState 7 rfl
     rfl rfl⟩

/-! ### C8: what the annealer returns -/

theorem annealInner_visited_mono {σ : Type} (prob : Annealer σ)
    (accepts : ℚ → ℚ → Nat → Bool) (startCost : ℚ) :
    ∀ (j : Nat) (st : AnnealState σ) (x : σ), x ∈ st.visited →
      x ∈ (annealInner prob accepts startCost j st).visited := by
  intro j
  induction j with
  | zero => intro st x hx; exact hx
  | succ j ih =>
      intro st x hx
      simp only [annealInner]
      split
      · split
        · exact List.mem_cons_of_mem _ hx
        · exact ih _ x (List.mem_cons_of_mem _ hx)
      · split
        · split
          · exact List.mem_cons_of_mem _ hx
          · exact ih _ x (List.mem_cons_of_mem _ hx)
        · split
          · exact List.mem_cons_of_mem _ hx
          · exact ih _ x (List.mem_cons_of_mem _ hx)

theorem annealOuter_visited_mono {σ : Type} (prob : Annealer σ)
    (accepts : ℚ → ℚ → Nat → Bool) :
    ∀ (i : Nat) (st : AnnealState σ) (x : σ), x ∈ st.visited →
      x ∈ (annealOuter prob accepts i st).visited := by
  intro i
  induction i with
  | zero => intro st x hx; exact hx
  | succ i ih =>
      intro st x hx
      rw [annealOuter]
      exact ih _ x
        (annealInner_visited_mono prob accepts st.currentCost STEPS_PER_TEMP st x hx)

theorem annealInner_min {σ : Type} (prob : Annealer σ)
    (accepts : ℚ → ℚ → Nat → Bool) (hnever : ∀ d t n, accepts d t n = false)
    (startCost : ℚ) :
    ∀ (j : Nat) (st : AnnealState σ), AnnealInv prob st →
      AnnealInv prob (annealInner prob accepts startCost j st) := by
  intro j
  induction j with
  | zero => intro st h; exact h
  | succ j ih =>
      intro st h
      simp only [annealInner]
      split
      · rename_i hlt
        have hinv : AnnealInv prob
            ⟨st.temperature, prob.randomTransition st.currentSolution st.n,
             prob.solutionCost (prob.randomTransition st.currentSolution st.n),
             st.n + 1,
             prob.randomTransition st.currentSolution st.n :: st.visited⟩ := by
          refine ⟨fun x hx => ?_, rfl⟩
          rcases List.mem_cons.mp hx with hx | hx
          · subst hx; exact le_refl _
          · exact le_of_lt (lt_of_lt_of_le hlt (h.1 x hx))
        split
        · exact hinv
        · exact ih _ hinv
      · rename_i hlt
        split
        · rename_i hacc
          rw [hnever] at hacc
          exact absurd hacc (by simp)
        · have hinv : AnnealInv prob
              ⟨st.temperature, st.currentSolution, st.currentCost, st.n + 1,
               prob.randomTransition st.currentSolution st.n :: st.visited⟩ := by
            refine ⟨fun x hx => ?_, h.2⟩
            rcases List.mem_cons.mp hx with hx | hx
            · subst hx; exact le_of_not_lt hlt
            · exact h.1 x hx
          split
          · exact hinv
          · exact ih _ hinv

theorem annealOuter_min {σ : Type} (prob : Annealer σ)
    (accepts : ℚ → ℚ → Nat → Bool) (hnever : ∀ d t n, accepts d t n = false) :
    ∀ (i : Nat) (st : AnnealState σ), AnnealInv prob st →
      AnnealInv prob (annealOuter prob accepts i st) := by
  intro i
  induction i with
  | zero => intro st h; exact h
  | succ i ih =>
      intro st h
      rw [annealOuter]
      exact ih _ (annealInner_min prob accepts hnever st.currentCost STEPS_PER_TEMP st h)

theorem annealInner_stable (startCost : ℚ) (st : AnnealState Nat)
    (hsol : st.currentSolution = 2) (hcost : st.currentCost = mkRat 5 (10 ^ 20))
    (hstart : startCost = mkRat 5 (10 ^ 20)) (hn : st.n ≠ 1) :
    annealInner annealProbEx annealAcceptsEx startCost STEPS_PER_TEMP st =
      { st with n := st.n + 1, visited := 2 :: st.visited } := by
  rw [show STEPS_PER_TEMP = 999 + 1 from rfl, annealInner]
  simp [annealProbEx, annealAcceptsEx, hsol, hcost, hstart, hn]

theorem annealOuter_stable :
    ∀ (i : Nat) (st : AnnealState Nat), st.currentSolution = 2 →
      st.currentCost = mkRat 5 (10 ^ 20) → 2 ≤ st.n → 1 ∈ st.visited →
      (annealOuter annealProbEx annealAcceptsEx i st).currentSolution = 2 ∧
        1 ∈ (annealOuter annealProbEx annealAcceptsEx i st).visited := by
  intro i
  induction i with
  | zero => intro st h1 h2 h3 h4; exact ⟨h1, h4⟩
  | succ i ih =>
      intro st h1 h2 h3 h4
      rw [annealOuter, annealInner_stable st.currentCost st h1 h2 h2 (by omega)]
      apply ih
      · exact h1
      · exact h2
      · exact Nat.le_succ_of_le h3
      · exact List.mem_cons_of_mem _ h4

attribute [irreducible] annealOuter

theorem anneal_eq {σ : Type} (prob : Annealer σ) (accepts : ℚ → ℚ → Nat → Bool) :
    prob.anneal accepts =
      ((annealOuter prob accepts COOLING_STEPS
          ⟨INITIAL_TEMPERATURE, prob.initialSolution,
           prob.solutionCost prob.initialSolution, 0,
           [prob.initialSolution]⟩).currentSolution,
       (annealOuter prob accepts COOLING_STEPS
          ⟨INITIAL_TEMPERATURE, prob.initialSolution,
           prob.solutionCost prob.initialSolution, 0,
           [prob.initialSolution]⟩).visited) := rfl

theorem fst_mk {α β : Type} (a : α) (b : β) : (a, b).1 = a := rfl

theorem snd_mk {α β : Type} (a : α) (b : β) : (a, b).2 = b := rfl

theorem anneal_fst {σ : Type} (prob : Annealer σ) (accepts : ℚ → ℚ → Nat → Bool) :
    (prob.anneal accepts).1 =
      (annealOuter prob accepts COOLING_STEPS
        ⟨INITIAL_TEMPERATURE, prob.initialSolution,
         prob.solutionCost prob.initialSolution, 0,
         [prob.initialSolution]⟩).currentSolution :=
  (congrArg Prod.fst (anneal_eq prob accepts)).trans
    (fst_mk
      ((annealOuter prob accepts COOLING_STEPS
        ⟨INITIAL_TEMPERATURE, prob.initialSolution,
         prob.solutionCost prob.initialSolution, 0,
         [prob.initialSolution]⟩).currentSolution)
      ((annealOuter prob accepts COOLING_STEPS
        ⟨INITIAL_TEMPERATURE, prob.initialSolution,
         prob.solutionCost prob.initialSolution, 0,
         [prob.initialSolution]⟩).visited))

theorem anneal_snd {σ : Type} (prob : Annealer σ) (accepts : ℚ → ℚ → Nat → Bool) :
    (prob.anneal accepts).2 =
      (annealOuter prob accepts COOLING_STEPS
        ⟨INITIAL_TEMPERATURE, prob.initialSolution,
         prob.solutionCost prob.initialSolution, 0,
         [prob.initialSolution]⟩).visited :=
  (congrArg Prod.snd (anneal_eq prob accepts)).trans
    (snd_mk
      ((annealOuter prob accepts COOLING_STEPS
        ⟨INITIAL_TEMPERATURE, prob.initialSolution,
         prob.solutionCost prob.initialSolution, 0,
         [prob.initialSolution]⟩).currentSolution)
      ((annealOuter prob accepts COOLING_STEPS
        ⟨INITIAL_TEMPERATURE, prob.initialSolution,
         prob.solutionCost prob.initialSolution, 0,
         [prob.initialSolution]⟩).visited))

theorem anneal_initial_visited {σ : Type} (prob : Annealer σ)
    (accepts : ℚ → ℚ → Nat → Bool) :
    prob.initialSolution ∈ (prob.anneal accepts).2 := by
  rw [anneal_snd]
  exact annealOuter_visited_mono prob accepts COOLING_STEPS
    ⟨INITIAL_TEMPERATURE, prob.initialSolution,
     prob.solutionCost prob.initialSolution, 0, [prob.initialSolution]⟩
    prob.initialSolution (List.mem_cons_self _ _)

/-- C8: counterexample — with the realizable accept pattern that takes the
single uphill move proposed at overall step 1, `anneal` returns solution 2
with cost 5/10^20 although the visited solution 1 has the strictly smaller
cost 3/10^20: the loop returns the current (last accepted) solution, not the
best seen. -/
theorem C8_counterexample_returns_nonbest :
    (annealProbEx.anneal annealAcceptsEx).1 = 2 ∧
      1 ∈ (annealProbEx.anneal annealAcceptsEx).2 ∧
      annealProbEx.solutionCost 1 <
        annealProbEx.solutionCost (annealProbEx.anneal annealAcceptsEx).1 := by
  have hinit : (⟨INITIAL_TEMPERATURE, annealProbEx.initialSolution,
      annealProbEx.solutionCost annealProbEx.initialSolution, 0,
      [annealProbEx.initialSolution]⟩ : AnnealState Nat) =
      ⟨INITIAL_TEMPERATURE, 0, mkRat 5 (10 ^ 20), 0, [0]⟩ := by decide
  have hin : annealInner annealProbEx annealAcceptsEx
      ((⟨INITIAL_TEMPERATURE, 0, mkRat 5 (10 ^ 20), 0, [0]⟩ :
          AnnealState Nat).currentCost)
      STEPS_PER_TEMP
      (⟨INITIAL_TEMPERATURE, 0, mkRat 5 (10 ^ 20), 0, [0]⟩ : AnnealState Nat) =
      ⟨INITIAL_TEMPERATURE, 2, mkRat 5 (10 ^ 20), 2, [2, 1, 0]⟩ := by decide
  have h1 : (annealProbEx.anneal annealAcceptsEx).1 = 2 := by
    rw [anneal_fst, hinit, show COOLING_STEPS = 4999 + 1 from rfl, annealOuter, hin]
    exact (annealOuter_stable 4999 _ rfl rfl (by decide) (by decide)).1
  have h2 : 1 ∈ (annealProbEx.anneal annealAcceptsEx).2 := by
    rw [anneal_snd, hinit, show COOLING_STEPS = 4999 + 1 from rfl, annealOuter, hin]
    exact (annealOuter_stable 4999 _ rfl rfl (by decide) (by decide)).2
  refine ⟨h1, h2, ?_⟩
  rw [h1]
  decide

/-- C8: corrected claim — `anneal` returns the current solution at the end of
the cooling loop (the last accepted solution), not the best seen; the two
agree when the merit oracle never accepts an uphill move, in which case the
returned solution's cost is a lower bound on the cost of every solution
visited during the run. -/
theorem C8_returns_last_accepted_amended {σ : Type} (prob : Annealer σ)
    (accepts : ℚ → ℚ → Nat → Bool) (hnever : ∀ d t n, accepts d t n = false)
    (x : σ) (hx : x ∈ (prob.anneal accepts).2) :
    prob.solutionCost (prob.anneal accepts).1 ≤ prob.solutionCost x := by
  rw [anneal_snd] at hx
  rw [anneal_fst]
  have h := annealOuter_min prob accepts hnever COOLING_STEPS
      ⟨INITIAL_TEMPERATURE, prob.initialSolution,
       prob.solutionCost prob.initialSolution, 0, [prob.initialSolution]⟩
      ⟨fun y hy => by
        rcases List.mem_singleton.mp hy with rfl
        exact le_refl _, rfl⟩
  rw [← h.2]
  exact h.1 x hx

/-- Witness for the amended C8 claim: with a never-accepting merit oracle the
returned solution costs no more than the initial solution, which is always
visited. -/
theorem C8_returns_last_accepted_amended_witness :
    annealProbEx.solutionCost ((annealProbEx.anneal (fun _ _ _ => false)).1) ≤
      annealProbEx.solutionCost annealProbEx.initialSolution :=
  C8_returns_last_accepted_amended annealProbEx (fun _ _ _ => false)
    (fun _ _ _ => rfl) annealProbEx.initialSolution
    (anneal_initial_visited annealProbEx (fun _ _ _ => false))

end Fathom
